import Mathlib

/-!
Verification of the log-to-event extraction pipeline of the
`oplenclaw-log-viz` repository.

The JavaScript sources (`scripts/parse-logs.js`, `scripts/slim-events.js`,
`scripts/build-standalone.js`) are shallowly embedded here:

* JS strings are modelled as `List Char` (`Str`);
* parsed JSON values (the result of `JSON.parse` on one log line) are
  modelled by the inductive type `Json`; JS `undefined` (absent property)
  is modelled by `Option Json = none`, JS `null` by `some .jnull`;
* the mutable global state of `parse-logs.js` (the `events` array and the
  `mdWriteCounts` / `mdWriteBytes` accumulators) is modelled by explicit
  state passing: every classification site is compiled to a pure list of
  `Op`s (in source order) which are then applied to a `ParseState`;
* timestamps are modelled as epoch milliseconds (`Int`).  The script
  stores `new Date(ms).toISOString()` in the `time` field and parses it
  back (`new Date(e.time)`) when sorting; `toISOString` is an injective,
  strictly monotone encoding of the epoch value whose output never
  contains the `'|'` character, so keeping the integer is faithful both
  for the dedup key and for the sort comparator.
-/

namespace LogViz

/-- JS strings modelled as lists of characters. -/
abbrev Str := List Char

/-! ## Character classes (ASCII fragments of the JS regex classes) -/

/-- JS regex `\d`. -/
def isDigitC (c : Char) : Bool := '0' ≤ c && c ≤ '9'

def isAsciiUpperC (c : Char) : Bool := 'A' ≤ c && c ≤ 'Z'

def isAsciiLowerC (c : Char) : Bool := 'a' ≤ c && c ≤ 'z'

def isAlphaC (c : Char) : Bool := isAsciiUpperC c || isAsciiLowerC c

/-- JS regex `[A-Za-z0-9]`. -/
def isAlnumC (c : Char) : Bool := isAlphaC c || isDigitC c

/-- JS regex `\w` = `[A-Za-z0-9_]`. -/
def isWordC (c : Char) : Bool := isAlnumC c || c = '_'

/-- JS regex `[\w-]` = `[A-Za-z0-9_-]`. -/
def isWordDashC (c : Char) : Bool := isWordC c || c = '-'

/-- JS regex `\s` (ASCII part; the JS class also has some Unicode spaces
which never occur in these logs). -/
def isWsC (c : Char) : Bool :=
  c = ' ' || c = '\t' || c = '\n' || c = '\r' || c = '\x0b' || c = '\x0c'

/-! ## Small string library (JS `String.prototype` operations) -/

/-- `String.prototype.toLowerCase` (ASCII; `Char.toLower` lowers exactly
the ASCII uppercase letters). -/
def lowerStr (s : Str) : Str := s.map Char.toLower

/-- `String.prototype.toUpperCase` (ASCII). -/
def upperStr (s : Str) : Str := s.map Char.toUpper

/-- `String.prototype.includes(needle)`. -/
def containsSub (needle hay : Str) : Bool :=
  needle.isPrefixOf hay ||
    match hay with
    | [] => false
    | _ :: t => containsSub needle t

/-- Case-insensitive prefix test (used for regex literals under the `i` flag). -/
def isPrefixOfCI (needle hay : Str) : Bool :=
  (lowerStr needle).isPrefixOf (lowerStr hay)

/-- Case-insensitive `includes`. -/
def containsSubCI (needle hay : Str) : Bool := containsSub (lowerStr needle) (lowerStr hay)

/-- Length of the longest prefix satisfying `p` (greedy regex character-class run). -/
def countWhile (p : Char → Bool) (l : Str) : Nat := (l.takeWhile p).length

/-- `String.prototype.trim` (ASCII whitespace; JS also trims a few Unicode
spaces which never occur here). -/
def trimStr (s : Str) : Str :=
  ((s.dropWhile isWsC).reverse.dropWhile isWsC).reverse

/-- `text.replace(/\n/g, " ")`: the pattern is a single character, so the
global replacement is exactly a character map. -/
def replaceNewlines (s : Str) : Str := s.map fun c => if c = '\n' then ' ' else c

/-- Numeric value of a digit string (`parseInt(digits, 10)`). -/
def digitVal (s : Str) : Nat := s.foldl (fun a c => a * 10 + (c.toNat - 48)) 0

/-- `text.split("\n")` (`List.splitOn` keeps empty segments, as JS does). -/
def splitLines (s : Str) : List Str := s.splitOn '\n'

/-- Generic left-to-right regex position scan: try the head matcher `f` at
every position (including the end-of-string position), feeding it the
previous character for `\b` look-behind; return the first success.  This is
exactly how a JS regex engine resolves an unanchored `match`/`test`. -/
def scanFirst (f : Option Char → Str → Option α) : Option Char → Str → Option α
  | prev, [] => f prev []
  | prev, c :: rest =>
    match f prev (c :: rest) with
    | some a => some a
    | none => scanFirst f (some c) rest

/-- Position scan for matchers that do not need look-behind. -/
def scanPos (f : Str → Option α) (l : Str) : Option α :=
  scanFirst (fun _ s => f s) none l

/-! ## JSON values -/

/-- A parsed JSON value (`JSON.parse` of one log line).  Object keys are
Lean `String`s for readability; string *values* are `Str` because the
pipeline computes on them character by character. -/
inductive Json where
  | jnull
  | jbool (b : Bool)
  | jnum (n : Int)
  | jstr (s : Str)
  | jarr (elems : List Json)
  | jobj (fields : List (String × Json))

mutual

def Json.jdecEq : (a b : Json) → Decidable (a = b)
  | .jnull, .jnull => isTrue rfl
  | .jbool a, .jbool b =>
    match decEq a b with
    | isTrue h => isTrue (h ▸ rfl)
    | isFalse h => isFalse fun hh => h (by injection hh)
  | .jnum a, .jnum b =>
    match decEq a b with
    | isTrue h => isTrue (h ▸ rfl)
    | isFalse h => isFalse fun hh => h (by injection hh)
  | .jstr a, .jstr b =>
    match decEq a b with
    | isTrue h => isTrue (h ▸ rfl)
    | isFalse h => isFalse fun hh => h (by injection hh)
  | .jarr a, .jarr b =>
    match Json.jdecEqList a b with
    | isTrue h => isTrue (h ▸ rfl)
    | isFalse h => isFalse fun hh => h (by injection hh)
  | .jobj a, .jobj b =>
    match Json.jdecEqFields a b with
    | isTrue h => isTrue (h ▸ rfl)
    | isFalse h => isFalse fun hh => h (by injection hh)
  | .jnull, .jbool _ => isFalse Json.noConfusion
  | .jnull, .jnum _ => isFalse Json.noConfusion
  | .jnull, .jstr _ => isFalse Json.noConfusion
  | .jnull, .jarr _ => isFalse Json.noConfusion
  | .jnull, .jobj _ => isFalse Json.noConfusion
  | .jbool _, .jnull => isFalse Json.noConfusion
  | .jbool _, .jnum _ => isFalse Json.noConfusion
  | .jbool _, .jstr _ => isFalse Json.noConfusion
  | .jbool _, .jarr _ => isFalse Json.noConfusion
  | .jbool _, .jobj _ => isFalse Json.noConfusion
  | .jnum _, .jnull => isFalse Json.noConfusion
  | .jnum _, .jbool _ => isFalse Json.noConfusion
  | .jnum _, .jstr _ => isFalse Json.noConfusion
  | .jnum _, .jarr _ => isFalse Json.noConfusion
  | .jnum _, .jobj _ => isFalse Json.noConfusion
  | .jstr _, .jnull => isFalse Json.noConfusion
  | .jstr _, .jbool _ => isFalse Json.noConfusion
  | .jstr _, .jnum _ => isFalse Json.noConfusion
  | .jstr _, .jarr _ => isFalse Json.noConfusion
  | .jstr _, .jobj _ => isFalse Json.noConfusion
  | .jarr _, .jnull => isFalse Json.noConfusion
  | .jarr _, .jbool _ => isFalse Json.noConfusion
  | .jarr _, .jnum _ => isFalse Json.noConfusion
  | .jarr _, .jstr _ => isFalse Json.noConfusion
  | .jarr _, .jobj _ => isFalse Json.noConfusion
  | .jobj _, .jnull => isFalse Json.noConfusion
  | .jobj _, .jbool _ => isFalse Json.noConfusion
  | .jobj _, .jnum _ => isFalse Json.noConfusion
  | .jobj _, .jstr _ => isFalse Json.noConfusion
  | .jobj _, .jarr _ => isFalse Json.noConfusion

def Json.jdecEqList : (a b : List Json) → Decidable (a = b)
  | [], [] => isTrue rfl
  | [], _ :: _ => isFalse List.noConfusion
  | _ :: _, [] => isFalse List.noConfusion
  | a :: as, b :: bs =>
    match Json.jdecEq a b, Json.jdecEqList as bs with
    | isTrue h1, isTrue h2 => isTrue (h1 ▸ h2 ▸ rfl)
    | isFalse h1, _ => isFalse fun hh => h1 (by injection hh)
    | _, isFalse h2 => isFalse fun hh => h2 (by injection hh)

def Json.jdecEqFields : (a b : List (String × Json)) → Decidable (a = b)
  | [], [] => isTrue rfl
  | [], _ :: _ => isFalse List.noConfusion
  | _ :: _, [] => isFalse List.noConfusion
  | (k1, v1) :: as, (k2, v2) :: bs =>
    match decEq k1 k2, Json.jdecEq v1 v2, Json.jdecEqFields as bs with
    | isTrue h0, isTrue h1, isTrue h2 => isTrue (h0 ▸ h1 ▸ h2 ▸ rfl)
    | isFalse h0, _, _ =>
      isFalse fun hh => by injection hh with hp _; exact h0 (congrArg Prod.fst hp)
    | _, isFalse h1, _ =>
      isFalse fun hh => by injection hh with hp _; exact h1 (congrArg Prod.snd hp)
    | _, _, isFalse h2 => isFalse fun hh => h2 (by injection hh)

end

instance : DecidableEq Json := Json.jdecEq

/-- Property access `obj?.k`: `none` models JS `undefined` (missing key or
access on a non-object). -/
def jget (k : String) : Json → Option Json
  | .jobj fields => fields.lookup k
  | _ => none

/-- JS truthiness of a defined value. -/
def Json.truthy : Json → Bool
  | .jnull => false
  | .jbool b => b
  | .jnum n => n != 0
  | .jstr s => !s.isEmpty
  | .jarr _ => true
  | .jobj _ => true

/-- JS truthiness of a possibly-undefined value. -/
def optTruthy : Option Json → Bool
  | some j => j.truthy
  | none => false

/-- Value of a JS `a || b || …` chain: the first truthy operand (if no
operand is truthy, JS yields the last operand; callers which rely on that
pass their own fallback for `none`). -/
def firstTruthy : List (Option Json) → Option Json
  | [] => none
  | o :: rest =>
    match o with
    | some j => if j.truthy then some j else firstTruthy rest
    | none => firstTruthy rest

/-- A JS value that is `undefined` or `null` (skipped by `??`). -/
def isNullish : Option Json → Bool
  | none => true
  | some .jnull => true
  | some _ => false

/-- Value of a JS `a ?? b ?? …` chain: the first operand that is neither
`undefined` nor `null`. -/
def firstNonNull : List (Option Json) → Option Json
  | [] => none
  | o :: rest =>
    match o with
    | some .jnull => firstNonNull rest
    | some j => some j
    | none => firstNonNull rest

mutual

/-- JS `String(x)` coercion (and `Array.prototype.join`'s element
coercion, where `null` becomes the empty string). -/
def Json.jsToString : Json → Str
  | .jnull => "null".data
  | .jbool true => "true".data
  | .jbool false => "false".data
  | .jnum n => (toString n).data
  | .jstr s => s
  | .jarr l => Json.jsJoinComma l
  | .jobj _ => "[object Object]".data

/-- `Array.prototype.toString` = `join(",")`; `null` elements render as `""`. -/
def Json.jsJoinComma : List Json → Str
  | [] => []
  | [x] => (match x with | .jnull => [] | j => j.jsToString)
  | x :: y :: rest =>
    (match x with | .jnull => [] | j => j.jsToString) ++ ',' :: Json.jsJoinComma (y :: rest)

end

/-- One character of `JSON.stringify` string escaping. -/
def escapeJsonChar (c : Char) : Str :=
  if c = '"' then ['\\', '"']
  else if c = '\\' then ['\\', '\\']
  else if c = '\n' then ['\\', 'n']
  else if c = '\r' then ['\\', 'r']
  else if c = '\t' then ['\\', 't']
  else if c = '\x08' then ['\\', 'b']
  else if c = '\x0c' then ['\\', 'f']
  else if c.toNat < 32 then
    let hexDigit := fun (n : Nat) => if n < 10 then Char.ofNat (48 + n) else Char.ofNat (87 + n)
    ['\\', 'u', '0', '0', hexDigit (c.toNat / 16), hexDigit (c.toNat % 16)]
  else [c]

def escapeJson (s : Str) : Str := s.flatMap escapeJsonChar

mutual

/-- `JSON.stringify` (no indentation — the script only stringifies tool
arguments that way).  Our model has no `undefined` values, so the
`undefined`-skipping rules never apply. -/
def Json.stringify : Json → Str
  | .jnull => "null".data
  | .jbool true => "true".data
  | .jbool false => "false".data
  | .jnum n => (toString n).data
  | .jstr s => '"' :: (escapeJson s ++ ['"'])
  | .jarr l => '[' :: (Json.stringifyList l ++ [']'])
  | .jobj fs => '{' :: (Json.stringifyFields fs ++ ['}'])

def Json.stringifyList : List Json → Str
  | [] => []
  | [x] => x.stringify
  | x :: y :: rest => x.stringify ++ ',' :: Json.stringifyList (y :: rest)

def Json.stringifyFields : List (String × Json) → Str
  | [] => []
  | [(k, v)] => '"' :: (escapeJson k.data ++ '"' :: ':' :: v.stringify)
  | (k, v) :: f :: rest =>
    ('"' :: (escapeJson k.data ++ '"' :: ':' :: v.stringify)) ++ ',' :: Json.stringifyFields (f :: rest)

end

mutual

/-- All string values occurring (recursively) in a JSON tree, in
left-to-right order.  Object keys are not included: the redaction script
only rewrites values. -/
def Json.strings : Json → List Str
  | .jstr s => [s]
  | .jarr l => Json.stringsList l
  | .jobj fs => Json.stringsFields fs
  | _ => []

def Json.stringsList : List Json → List Str
  | [] => []
  | x :: rest => x.strings ++ Json.stringsList rest

def Json.stringsFields : List (String × Json) → List Str
  | [] => []
  | (_, v) :: rest => v.strings ++ Json.stringsFields rest

end

/-! ## Timestamp parsing

`new Date(string).getTime()` for the ISO-8601 shapes that actually occur
in these logs (`YYYY-MM-DD` and `YYYY-MM-DDTHH:MM:SS[.mmm]Z`); any other
string yields `NaN` in JS, modelled as `none`. -/

/-- Civil date → days since the Unix epoch (standard era-based algorithm,
using floor division). -/
def daysFromCivil (y m d : Int) : Int :=
  let y2 := if m ≤ 2 then y - 1 else y
  let era := Int.fdiv y2 400
  let yoe := y2 - era * 400
  let mp := Int.emod (m + 9) 12
  let doy := Int.fdiv (153 * mp + 2) 5 + d - 1
  let doe := yoe * 365 + Int.fdiv yoe 4 - Int.fdiv yoe 100 + doy
  era * 146097 + doe - 719468

def isLeapYear (y : Int) : Bool :=
  (Int.emod y 4 = 0 && Int.emod y 100 ≠ 0) || Int.emod y 400 = 0

def daysInMonth (y m : Int) : Int :=
  if m = 2 then (if isLeapYear y then 29 else 28)
  else if m = 4 || m = 6 || m = 9 || m = 11 then 30
  else 31

def digit2 (a b : Char) : Nat := (a.toNat - 48) * 10 + (b.toNat - 48)

def digit4 (a b c d : Char) : Nat := digit2 a b * 100 + digit2 c d

/-- Milliseconds since the epoch for a calendar date-time (all-UTC). -/
def civilMs (y m d hh mm ss ms : Int) : Int :=
  daysFromCivil y m d * 86400000 + hh * 3600000 + mm * 60000 + ss * 1000 + ms

/-- `new Date(t).getTime()` for the ISO timestamp shapes that occur in
these logs: `YYYY-MM-DD` and `YYYY-MM-DDTHH:MM:SS[.mmm]Z`, evaluated in
UTC.  JS `new Date()` also accepts further forms (timezone offsets, a
missing `Z`, `T24:00`); the model maps those to `none` (record dropped),
an under-approximation of what the script keeps.  No theorem depends on
which strings parse, only on how a parsed or unparsable value is used. -/
def parseDateMs (s : Str) : Option Int :=
  match s with
  | y1 :: y2 :: y3 :: y4 :: '-' :: m1 :: m2 :: '-' :: d1 :: d2 :: rest =>
    if [y1, y2, y3, y4, m1, m2, d1, d2].all isDigitC then
      let y : Int := digit4 y1 y2 y3 y4
      let mo : Int := digit2 m1 m2
      let da : Int := digit2 d1 d2
      if 1 ≤ mo && mo ≤ 12 && 1 ≤ da && da ≤ daysInMonth y mo then
        match rest with
        | [] => some (civilMs y mo da 0 0 0 0)
        | 'T' :: h1 :: h2 :: ':' :: n1 :: n2 :: ':' :: s1 :: s2 :: rest2 =>
          if [h1, h2, n1, n2, s1, s2].all isDigitC then
            let hh : Int := digit2 h1 h2
            let mm : Int := digit2 n1 n2
            let ss : Int := digit2 s1 s2
            if hh ≤ 23 && mm ≤ 59 && ss ≤ 59 then
              match rest2 with
              | ['Z'] => some (civilMs y mo da hh mm ss 0)
              | '.' :: a :: b :: c :: ['Z'] =>
                if [a, b, c].all isDigitC then
                  some (civilMs y mo da hh mm ss (digit2 a b * 10 + (c.toNat - 48)))
                else none
              | _ => none
            else none
          else none
        | _ => none
      else none
    else none
  | _ => none

/-! ## Field extractors (`parse-logs.js` lines 52–157) -/

/-- `getTimestamp`: `obj?.time ?? obj?.date ?? obj?.timestamp ?? obj?.ts
?? obj?.runAtMs`, then string → `Date` parse, number → as-is.  JS returns
`NaN` for an unparsable string and `null` when no field is usable; both
make every caller skip the record (`if (!ts)`), and both are modelled as
`none`.  The `t instanceof Date` branch is unreachable for `JSON.parse`
output. -/
def getTimestamp (obj : Json) : Option Int :=
  match firstNonNull
      [jget "time" obj, jget "date" obj, jget "timestamp" obj,
       jget "ts" obj, jget "runAtMs" obj] with
  | some (.jstr s) => parseDateMs s
  | some (.jnum n) => some n
  | _ => none

/-- The caller-side `if (!ts)` check: a missing, unparsable, or zero
timestamp drops the record (`!0` is true in JS). -/
def tsUsable (o : Option Int) : Option Int :=
  match o with
  | some t => if t = 0 then none else some t
  | none => none

/-- `getMessage` (ordered fallback).  `Object.values` of a primitive
filtered by `typeof c === "object"` is empty, so the content branch
treats a primitive `content` as producing no parts. -/
def getMessage (obj : Json) : Str :=
  match jget "message" obj with
  | some (.jstr s) => s
  | _ =>
    -- obj?.[0]  (array head or property "0"), kept only when a string
    match (match obj with
           | .jarr (e :: _) => some e
           | .jobj _ => jget "0" obj
           | _ => none) with
    | some (.jstr s) => s
    | _ =>
      -- Array.isArray(obj.arguments) && obj.arguments[0]  (truthy head)
      match jget "arguments" obj with
      | some (.jarr (a :: _)) =>
        if a.truthy then a.jsToString else getMessageContent obj
      | _ => getMessageContent obj
where
  /-- The `obj?.message?.content` and `obj?.summary` fallbacks. -/
  getMessageContent (obj : Json) : Str :=
    match (jget "message" obj).bind (jget "content") with
    | some content =>
      if content.truthy then
        let vals : List Json :=
          match content with
          | .jarr l => l
          | .jobj fs => fs.map (·.2)
          | _ => []
        let parts : List Json := vals.filterMap fun v =>
          match v with
          | .jobj _ | .jarr _ => firstTruthy [jget "text" v, jget "thinking" v]
          | _ => none
        List.intercalate " ".data (parts.map Json.jsToString)
      else getMessageSummary obj
    | none => getMessageSummary obj
  getMessageSummary (obj : Json) : Str :=
    match jget "summary" obj with
    | some (.jstr s) => s
    | _ => []

/-- `getLevel`: `obj?.level ?? obj?.logLevel ?? "info"` (the raw JSON
value is kept, as in JS). -/
def getLevel (obj : Json) : Json :=
  (firstNonNull [jget "level" obj, jget "logLevel" obj]).getD (.jstr "info".data)

/-- `getSubsystem`: `obj?.subsystem ?? obj?.name ?? ""`. -/
def getSubsystem (obj : Json) : Json :=
  (firstNonNull [jget "subsystem" obj, jget "name" obj]).getD (.jstr [])

/-- The fixed watch-list of workspace files. -/
def MD_FILES : List Str :=
  ["SOUL.md", "AGENTS.md", "MEMORY.md", "HEARTBEAT.md", "TOOLS.md",
   "IDENTITY.md", "USER.md", "BOOTSTRAP.md"].map String.data

/-- Head matcher for the fallback pattern
`(?:[/\\]?)(?:data[/\\]workspace[/\\])?([A-Z][A-Za-z0-9_-]+\.md)`: the two
leading groups are optional and contain no capital letters, so the
returned capture is the leftmost occurrence of the capture pattern. -/
def mdFallbackAt (l : Str) : Option Str :=
  match l with
  | c :: rest =>
    if isAsciiUpperC c then
      let run := countWhile isWordDashC rest
      if run ≥ 1 && ['.', 'm', 'd'].isPrefixOf (rest.drop run) then
        some (c :: (rest.take run ++ ['.', 'm', 'd']))
      else none
    else none
  | [] => none

/-- `extractMdFile`: first watch-list name contained in the text
(case-sensitively or case-insensitively), else the fallback path pattern. -/
def extractMdFile (text : Str) : Option Str :=
  match MD_FILES.find? (fun f =>
      containsSub f text || containsSub (upperStr f) (upperStr text)) with
  | some f => some f
  | none => scanPos mdFallbackAt text

/-- `prev` is a non-word position (for `\b` before a word character). -/
def prevNonWord : Option Char → Bool
  | none => true
  | some c => !isWordC c

/-- next char is a non-word position (for `\b` after a word character). -/
def nextNonWord : Str → Bool
  | [] => true
  | c :: _ => !isWordC c

/-- `(\d+)\s*bytes?` at the current position. -/
def byteAlt1 (l : Str) : Option Nat :=
  let d := countWhile isDigitC l
  if d ≥ 1 then
    let after := l.drop d
    let w := countWhile isWsC after
    if isPrefixOfCI "byte".data (after.drop w) then some (digitVal (l.take d)) else none
  else none

/-- `\b(\d+)\s*chars?` at the current position. -/
def byteAlt2 (prev : Option Char) (l : Str) : Option Nat :=
  if prevNonWord prev then
    let d := countWhile isDigitC l
    if d ≥ 1 then
      let after := l.drop d
      let w := countWhile isWsC after
      if isPrefixOfCI "char".data (after.drop w) then some (digitVal (l.take d)) else none
    else none
  else none

/-- `written\s*(\d+)` at the current position. -/
def byteAlt3 (l : Str) : Option Nat :=
  if isPrefixOfCI "written".data l then
    let after := l.drop 7
    let w := countWhile isWsC after
    let d := countWhile isDigitC (after.drop w)
    if d ≥ 1 then some (digitVal ((after.drop w).take d)) else none
  else none

/-- `(\d+)\s*B\b` at the current position (the `i` flag also admits `b`). -/
def byteAlt4 (l : Str) : Option Nat :=
  let d := countWhile isDigitC l
  if d ≥ 1 then
    let after := l.drop d
    let w := countWhile isWsC after
    match after.drop w with
    | c :: rest2 =>
      if (c = 'B' || c = 'b') && nextNonWord rest2 then some (digitVal (l.take d)) else none
    | [] => none
  else none

/-- `bytesWritten["\s:]+(\d+)` at the current position. -/
def byteAlt5 (l : Str) : Option Nat :=
  if isPrefixOfCI "bytesWritten".data l then
    let after := l.drop 12
    let k := countWhile (fun c => c = '"' || isWsC c || c = ':') after
    if k ≥ 1 then
      let d := countWhile isDigitC (after.drop k)
      if d ≥ 1 then some (digitVal ((after.drop k).take d)) else none
    else none
  else none

/-- `"size"\s*:\s*(\d+)` at the current position (case-sensitive). -/
def sizeAlt (l : Str) : Option Nat :=
  if ['"', 's', 'i', 'z', 'e', '"'].isPrefixOf l then
    let after := l.drop 6
    let w := countWhile isWsC after
    match after.drop w with
    | ':' :: rest =>
      let w2 := countWhile isWsC rest
      let d := countWhile isDigitC (rest.drop w2)
      if d ≥ 1 then some (digitVal ((rest.drop w2).take d)) else none
    | _ => none
  else none

/-- `extractBytes`: the first (leftmost position, then alternative order)
capture of
`/(\d+)\s*bytes?|\b(\d+)\s*chars?|written\s*(\d+)|(\d+)\s*B\b|bytesWritten["\s:]+(\d+)/i`,
else of `/"size"\s*:\s*(\d+)/`. -/
def extractBytes (text : Str) : Option Nat :=
  match scanFirst (fun prev l =>
      byteAlt1 l <|> byteAlt2 prev l <|> byteAlt3 l <|> byteAlt4 l <|> byteAlt5 l)
      none text with
  | some n => some n
  | none => scanPos sizeAlt text

/-- Class `[a-z_]` under the `i` flag. -/
def isToolNameC (c : Char) : Bool := isAlphaC c || c = '_'

/-- `tool=([a-z_]+)` (with `i`) at the current position. -/
def toolAlt1 (l : Str) : Option Str :=
  if isPrefixOfCI "tool=".data l then
    let run := countWhile isToolNameC (l.drop 5)
    if run ≥ 1 then some ((l.drop 5).take run) else none
  else none

/-- `tool\s*[=:]\s*["']?([a-z_]+)` (with `i`) at the current position. -/
def toolAlt2 (l : Str) : Option Str :=
  if isPrefixOfCI "tool".data l then
    let after := l.drop 4
    let w := countWhile isWsC after
    match after.drop w with
    | c :: rest =>
      if c = '=' || c = ':' then
        let w2 := countWhile isWsC rest
        let r3 := rest.drop w2
        let r4 := match r3 with
          | q :: t => if q = '"' || q = '\'' then t else r3
          | [] => r3
        let run := countWhile isToolNameC r4
        if run ≥ 1 then some (r4.take run) else none
      else none
    | [] => none
  else none

/-- `extractToolName`: first regex, else second. -/
def extractToolName (text : Str) : Option Str :=
  match scanPos toolAlt1 text with
  | some s => some s
  | none => scanPos toolAlt2 text

/-- `key=([^\s,]+)` at the current position (case-sensitive). -/
def idAlt1 (key : Str) (l : Str) : Option Str :=
  if (key ++ ['=']).isPrefixOf l then
    let after := l.drop (key.length + 1)
    let run := countWhile (fun c => !isWsC c && c ≠ ',') after
    if run ≥ 1 then some (after.take run) else none
  else none

/-- `key["']?\s*[=:]\s*["']?([^\s"',]+)` at the current position. -/
def idAlt2 (key : Str) (l : Str) : Option Str :=
  if key.isPrefixOf l then
    let a0 := l.drop key.length
    let a1 := match a0 with
      | q :: t => if q = '"' || q = '\'' then t else a0
      | [] => a0
    let w := countWhile isWsC a1
    match a1.drop w with
    | c :: rest =>
      if c = '=' || c = ':' then
        let w2 := countWhile isWsC rest
        let r3 := rest.drop w2
        let r4 := match r3 with
          | q :: t => if q = '"' || q = '\'' then t else r3
          | [] => r3
        let run := countWhile (fun c => !isWsC c && c ≠ '"' && c ≠ '\'' && c ≠ ',') r4
        if run ≥ 1 then some (r4.take run) else none
      else none
    | [] => none
  else none

def extractIdWith (key : Str) (text : Str) : Option Str :=
  match scanPos (idAlt1 key) text with
  | some s => some s
  | none => scanPos (idAlt2 key) text

def extractRunId (text : Str) : Option Str := extractIdWith "runId".data text

def extractSessionId (text : Str) : Option Str := extractIdWith "sessionId".data text

/-- `summarizePrompt`: truncate at 120 chars (with ellipsis), then
`replace(/\n/g, " ").trim()`. -/
def summarizePrompt (text : Str) : Str :=
  trimStr (replaceNewlines
    (if text.length > 120 then text.take 120 ++ ['…'] else text))

/-- `fullContentForMdWrite`: trim, then truncate at 100000 chars. -/
def fullContentForMdWrite (text : Str) : Str :=
  let t := trimStr text
  if t.length > 100000 then t.take 100000 ++ "\n…[truncated]".data else t

/-- JS regex `.` without the `s` flag: any char except a line terminator. -/
def isDotC (c : Char) : Bool := c ≠ '\n' && c ≠ '\r'

/-- Head matcher for `/\):\s*([^\n]+)/`.  The greedy `\s*` takes the whole
whitespace run when a non-whitespace character follows; when the string
ends inside the run it backtracks to the last whitespace character that
`[^\n]` can match. -/
def closeParenAt (l : Str) : Option Str :=
  match l with
  | ')' :: ':' :: rest =>
    let w := countWhile isWsC rest
    let r := rest.drop w
    match r with
    | _ :: _ => some (r.takeWhile (fun c => c ≠ '\n'))
    | [] =>
      let ws := rest.take w
      let tn := countWhile (fun c => c = '\n') ws.reverse
      if tn < w then some ((ws.drop (w - tn - 1)).takeWhile (fun c => c ≠ '\n')) else none
  | _ => none

/-- Head matcher for `/\):\s*(.+)/` (applied to a single line; `.` also
rejects `\r`). -/
def closeParenLineAt (l : Str) : Option Str :=
  match l with
  | ')' :: ':' :: rest =>
    let w := countWhile isWsC rest
    let r := rest.drop w
    match r with
    | _ :: _ => some (r.takeWhile isDotC)
    | [] =>
      let ws := rest.take w
      let tn := countWhile (fun c => c = '\n' || c = '\r') ws.reverse
      if tn < w then some ((ws.drop (w - tn - 1)).takeWhile isDotC) else none
  | _ => none

/-- Whether `/\s*\[from:\s*[^\]]+\]\s*$/i` matches starting at this
position (i.e. reaches the end of the string).  One backtracking corner
is not modelled: for a bracket content that is whitespace-only, JS lets
the inner `\s*` give a character back to `[^\]]+` and still matches,
while this model starts the `[^\]]+` run only after the full whitespace
run and rejects; no theorem exercises that corner. -/
def fromTagToEnd (l : Str) : Bool :=
  let w := countWhile isWsC l
  let a := l.drop w
  if isPrefixOfCI "[from:".data a then
    let b := a.drop 6
    let w2 := countWhile isWsC b
    let c := b.drop w2
    let run := countWhile (fun ch => ch ≠ ']') c
    if run ≥ 1 then
      match c.drop run with
      | ']' :: d => (d.dropWhile isWsC).isEmpty
      | _ => false
    else false
  else false

/-- `msg.replace(/\s*\[from:\s*[^\]]+\]\s*$/i, "")`: cut the string at the
leftmost position from which the (end-anchored) tag pattern matches. -/
def stripFromTag (l : Str) : Str :=
  if fromTagToEnd l then []
  else
    match l with
    | [] => []
    | c :: rest => c :: stripFromTag rest

/-- Global regex replacement by the empty string: at each position, if the
head matcher `m` reports a (positive-length) match, skip it; otherwise
keep the character.  This is `String.prototype.replace` with a `/g` regex
and an empty replacement. -/
def dropMatches (m : Str → Option Nat) : Str → Str
  | [] => []
  | c :: rest =>
    match m (c :: rest) with
    | some n =>
      if h : 1 ≤ n then dropMatches m ((c :: rest).drop n)
      else c :: dropMatches m rest
    | none => c :: dropMatches m rest
termination_by l => l.length
decreasing_by
  · simp only [List.length_drop, List.length_cons]
    omega
  all_goals simp

/-- Head match of `/<@\d+>/`. -/
def mentionAt (l : Str) : Option Nat :=
  match l with
  | '<' :: '@' :: r2 =>
    let d := countWhile isDigitC r2
    if d ≥ 1 && (r2.drop d).head? = some '>' then some (3 + d) else none
  | _ => none

/-- `msg.replace(/<@\d+>/g, "")`. -/
def removeMentions (l : Str) : Str := dropMatches mentionAt l

def UNTRUSTED_START : Str := "<<<EXTERNAL_UNTRUSTED_CONTENT>>>".data

def UNTRUSTED_END : Str := "<<<END_EXTERNAL_UNTRUSTED_CONTENT>>>".data

/-- Index of the first occurrence of `needle`. -/
def findSubIdx (needle : Str) : Str → Option Nat
  | [] => if needle.isPrefixOf [] then some 0 else none
  | c :: t =>
    if needle.isPrefixOf (c :: t) then some 0
    else (findSubIdx needle t).map (· + 1)

/-- Head match of
`/<<<EXTERNAL_UNTRUSTED_CONTENT>>>[\s\S]*?<<<END_EXTERNAL_UNTRUSTED_CONTENT>>>/`:
the start marker with everything up to the *nearest* end marker (lazy
`*?`); a start marker with no following end marker does not match. -/
def untrustedAt (l : Str) : Option Nat :=
  if UNTRUSTED_START.isPrefixOf l then
    match findSubIdx UNTRUSTED_END (l.drop UNTRUSTED_START.length) with
    | some i => some (UNTRUSTED_START.length + i + UNTRUSTED_END.length)
    | none => none
  else none

def removeUntrusted (l : Str) : Str := dropMatches untrustedAt l

/-- The final fallback loop of `extractUserMessageText`: first line whose
trimmed text is non-empty, does not start with `[`, and fails
`/message_id|^\[from:/i`. -/
def firstGoodLine (lines : List Str) : Option Str :=
  lines.findSome? fun line =>
    let t := trimStr line
    if !t.isEmpty && !(t.head? = some '[') &&
        !(containsSubCI "message_id".data t || isPrefixOfCI "[from:".data t) then
      some t
    else none

/-- `extractUserMessageText` (`parse-logs.js` lines 127–144). -/
def extractUserMessageText (text : Str) : Str :=
  match scanPos closeParenAt text with
  | some cap =>
    let msg := trimStr (removeMentions (stripFromTag (trimStr cap)))
    if msg.length > 0 then msg else userMessageFallback text
  | none => userMessageFallback text
where
  userMessageFallback (text : Str) : Str :=
    let withoutBlocks := trimStr (removeUntrusted text)
    let firstLine := (splitLines withoutBlocks).headD []
    match scanPos closeParenLineAt firstLine with
    | some cap => trimStr cap
    | none =>
      match firstGoodLine (splitLines withoutBlocks) with
      | some t => t
      | none => text

/-- `buildAssistantMessageText` (`parse-logs.js` lines 147–157). -/
def buildAssistantMessageText (content : List Json) : Str :=
  let textParts := content.filterMap fun c =>
    match jget "text" c with
    | some v => if v.truthy then some v.jsToString else none
    | none => none
  let thinkingParts := content.filterMap fun c =>
    match jget "thinking" c with
    | some v => if v.truthy then some v.jsToString else none
    | none => none
  let text := trimStr (List.intercalate " ".data textParts)
  let thinking := trimStr (List.intercalate " ".data thinkingParts)
  if !text.isEmpty then text ++ (if !thinking.isEmpty then ' ' :: thinking else []) else thinking

/-! ## Keyword / regex test predicates used by the classifiers -/

def writeVerbs : List Str :=
  ["wrote", "written", "updated", "edited", "replaced"].map String.data

/-- `/\b(wrote|written|updated|edited|replaced)\b/i.test(text)`. -/
def writeVerbTest (text : Str) : Bool :=
  (scanFirst (fun prev l =>
      if prevNonWord prev &&
          writeVerbs.any (fun w => isPrefixOfCI w l && nextNonWord (l.drop w.length)) then
        some ()
      else none)
    none text).isSome

/-- `/A\s+B/i.test(text)` for literals `A`, `B`. -/
def pairWsTest (a b : Str) (text : Str) : Bool :=
  (scanPos (fun l =>
      if isPrefixOfCI a l then
        let r := l.drop a.length
        let w := countWhile isWsC r
        if w ≥ 1 && isPrefixOfCI b (r.drop w) then some () else none
      else none) text).isSome

/-- `/successfully\s+(wrote|replaced|updated)/i.test(text)`. -/
def successWroteTest (text : Str) : Bool :=
  (scanPos (fun l =>
      if isPrefixOfCI "successfully".data l then
        let r := l.drop 12
        let w := countWhile isWsC r
        if w ≥ 1 &&
            (isPrefixOfCI "wrote".data (r.drop w) || isPrefixOfCI "replaced".data (r.drop w) ||
              isPrefixOfCI "updated".data (r.drop w)) then
          some ()
        else none
      else none) text).isSome

/-- `B` found after the current position with no line terminator in
between (`.*B`, case-insensitively). -/
def sameLineThenCI (b : Str) : Str → Bool
  | [] => false
  | c :: rest =>
    if isPrefixOfCI b (c :: rest) then true
    else if c = '\n' || c = '\r' then false
    else sameLineThenCI b rest

/-- `/moltbook\.sh\s+create|moltbook\.sh\s+post|api\/posts.*POST|POST.*moltbook\.com\/api\/posts/i.test(s)`. -/
def moltbookPostArgsTest (s : Str) : Bool :=
  pairWsTest "moltbook.sh".data "create".data s ||
  pairWsTest "moltbook.sh".data "post".data s ||
  (scanPos (fun l =>
      if isPrefixOfCI "api/posts".data l && sameLineThenCI "post".data (l.drop 9) then some ()
      else none) s).isSome ||
  (scanPos (fun l =>
      if isPrefixOfCI "post".data l && sameLineThenCI "moltbook.com/api/posts".data (l.drop 4) then
        some ()
      else none) s).isSome

/-- `/moltbook\.sh\s+reply|api\/posts\/[^/]+\/comments|reply.*POST/i.test(s)`. -/
def moltbookReplyArgsTest (s : Str) : Bool :=
  pairWsTest "moltbook.sh".data "reply".data s ||
  (scanPos (fun l =>
      if isPrefixOfCI "api/posts/".data l then
        let r := l.drop 10
        let run := countWhile (fun c => c ≠ '/') r
        if run ≥ 1 && isPrefixOfCI "/comments".data (r.drop run) then some () else none
      else none) s).isSome ||
  (scanPos (fun l =>
      if isPrefixOfCI "reply".data l && sameLineThenCI "post".data (l.drop 5) then some ()
      else none) s).isSome

/-- `/sent\s+email|reply\s+sent|email\s+sent|responded\s+to/i.test(rt)`. -/
def emailSentTest (rt : Str) : Bool :=
  pairWsTest "sent".data "email".data rt || pairWsTest "reply".data "sent".data rt ||
  pairWsTest "email".data "sent".data rt || pairWsTest "responded".data "to".data rt

/-- Second capture of `/Done:\s*(\d+)\s+unread,\s*(\d+)\s+responded/i`. -/
def doneRespondedCapture (text : Str) : Option Nat :=
  scanPos (fun l =>
    if isPrefixOfCI "done:".data l then
      let a := l.drop 5
      let b := a.drop (countWhile isWsC a)
      let d1 := countWhile isDigitC b
      if d1 ≥ 1 then
        let c := b.drop d1
        let w2 := countWhile isWsC c
        if w2 ≥ 1 && isPrefixOfCI "unread,".data (c.drop w2) then
          let e := (c.drop w2).drop 7
          let f := e.drop (countWhile isWsC e)
          let d2 := countWhile isDigitC f
          if d2 ≥ 1 then
            let g := f.drop d2
            let w4 := countWhile isWsC g
            if w4 ≥ 1 && isPrefixOfCI "responded".data (g.drop w4) then
              some (digitVal (f.take d2))
            else none
          else none
        else none
      else none
    else none) text

/-- `/"success"\s*:\s*true/i` part of the moltbook result tests. -/
def jsonSuccessTrueTest (rt : Str) : Bool :=
  (scanPos (fun l =>
      if isPrefixOfCI "\"success\"".data l then
        let a := l.drop 9
        match a.drop (countWhile isWsC a) with
        | ':' :: r =>
          if isPrefixOfCI "true".data (r.drop (countWhile isWsC r)) then some () else none
        | _ => none
      else none) rt).isSome

/-- `/"success"\s*:\s*true|post\s+created|created\s+post/i.test(rt)`. -/
def successPostTest (rt : Str) : Bool :=
  jsonSuccessTrueTest rt || pairWsTest "post".data "created".data rt ||
    pairWsTest "created".data "post".data rt

/-- `/"success"\s*:\s*true|reply\s+posted|comment\s+posted|posted\s+reply/i.test(rt)`. -/
def successCommentTest (rt : Str) : Bool :=
  jsonSuccessTrueTest rt || pairWsTest "reply".data "posted".data rt ||
    pairWsTest "comment".data "posted".data rt || pairWsTest "posted".data "reply".data rt

/-- `name.replace(/^functions\./, "")` (anchored: one leading occurrence). -/
def stripFunctionsDot (s : Str) : Str :=
  if "functions.".data.isPrefixOf s then s.drop 10 else s

/-! ## Events and the classification state

`parse-logs.js` mutates a global `events` array and two counter objects.
Each classification site is compiled to an `Op` (one `addEvent`, with the
paired counter updates for an md-write site); a record yields a pure list
of `Op`s in source order, and `Op.apply` performs the mutations. -/

/-- The canonical `LogEvent`.  `time` is the epoch-millisecond value whose
ISO rendering the script stores; `category`, `level` and `subsystem` keep
the raw JSON value exactly as the script does (`c.name`, `getLevel`, …);
the trailing optional fields are the enrichment fields attached later by
the external annotator scripts (never by extraction). -/
structure Event where
  time : Int
  etype : Str
  category : Json
  message : Str
  level : Json
  subsystem : Json
  runId : Option Json := none
  sessionId : Option Json := none
  bytes : Option Nat := none
  role : Option Str := none
  embeddingText : Option Str := none
  summary : Option Str := none
  modSummary : Option Str := none
  sentiment : Option Str := none
  embedding : Option (List Int) := none
deriving DecidableEq

/-- One classification signal: a plain `addEvent`, or an md-write site
(`mdWriteCounts[f]++`, conditional `mdWriteBytes[f] += bytes`, and the
`addEvent` of the md_write event, exactly as at the four source sites). -/
inductive Op where
  | plain (e : Event)
  | mdWrite (time : Int) (f : Str) (bytes : Option Nat) (message : Str)
      (level subsystem : Json) (runId sessionId : Option Json)
deriving DecidableEq

/-- The event literal built at every md-write site: type `md_write`,
category the resolved file name, `bytes` present iff non-null. -/
def mdEventOf (time : Int) (f : Str) (bytes : Option Nat) (message : Str)
    (level subsystem : Json) (runId sessionId : Option Json) : Event :=
  { time, etype := "md_write".data, category := .jstr f, message, level, subsystem,
    runId, sessionId, bytes }

def Op.event : Op → Event
  | .plain e => e
  | .mdWrite t f b m lv sub rid sid => mdEventOf t f b m lv sub rid sid

structure ParseState where
  events : List Event
  mdWriteCounts : List (Str × Nat)
  mdWriteBytes : List (Str × Nat)
deriving DecidableEq

/-- `counters[k] = (counters[k] ?? 0) + n` on a JS object modelled as an
insertion-ordered association list. -/
def bumpAssoc (k : Str) (n : Nat) (l : List (Str × Nat)) : List (Str × Nat) :=
  if l.any (fun p => p.1 == k) then
    l.map (fun p => if p.1 == k then (p.1, p.2 + n) else p)
  else l ++ [(k, n)]

/-- `counters[k] ?? 0`. -/
def lookupCount (k : Str) (l : List (Str × Nat)) : Nat := (l.lookup k).getD 0

def Op.apply (op : Op) (st : ParseState) : ParseState :=
  match op with
  | .plain e => { st with events := st.events ++ [e] }
  | .mdWrite t f b m lv sub rid sid =>
    { events := st.events ++ [mdEventOf t f b m lv sub rid sid],
      mdWriteCounts := bumpAssoc f 1 st.mdWriteCounts,
      -- `if (bytes) mdWriteBytes[f] += bytes` — only a truthy byte count bumps
      mdWriteBytes :=
        match b with
        | some bv => if bv ≠ 0 then bumpAssoc f bv st.mdWriteBytes else st.mdWriteBytes
        | none => st.mdWriteBytes }

def applyOps (ops : List Op) (st : ParseState) : ParseState :=
  ops.foldl (fun s o => o.apply s) st

/-! ## `processJsonlEvent` (lines 167–359) -/

/-- The cron branch (lines 172–211). -/
def cronOps (obj : Json) (t : Int) : List Op :=
  let msg : Str :=
    match firstTruthy [jget "summary" obj, jget "action" obj] with
    | some (.jstr s) => s
    -- a truthy non-string here would make the JS throw on `msg.toLowerCase()`;
    -- modelled as a coercion, no claim exercises it
    | some v => v.jsToString
    | none => []
  let ok : Bool := jget "status" obj == some (Json.jstr "ok".data)
  let jobId := jget "jobId" obj
  let ml := lowerStr msg
  [Op.plain
    { time := t, etype := "cron".data,
      category := .jstr (if ok then "success".data else "failure".data),
      message := summarizePrompt msg,
      level := .jstr (if ok then "info".data else "warn".data),
      subsystem := .jstr "cron".data, runId := jobId, sessionId := jobId }]
  ++ (if containsSub "email".data ml &&
        (containsSub "sent".data ml || containsSub "responded".data ml ||
          containsSub "reply".data ml) &&
        !containsSub "0 responded".data ml then
        [Op.plain
          { time := t, etype := "email_sent".data, category := .jstr "email".data,
            message := summarizePrompt msg, level := .jstr "info".data,
            subsystem := .jstr "cron".data, runId := jobId, sessionId := jobId }]
      else [])
  ++ (if containsSub "moltbook".data ml &&
        (containsSub "post".data ml || containsSub "browse".data ml) then
        (if containsSub "posted".data ml || containsSub "created".data ml ||
            containsSub "new post".data ml then
          [Op.plain
            { time := t, etype := "moltbook_post".data, category := .jstr "post".data,
              message := summarizePrompt msg, level := .jstr "info".data,
              subsystem := .jstr "cron".data, runId := jobId, sessionId := jobId }]
        else [])
      else [])
  ++ (match extractMdFile msg with
      | some f => [Op.mdWrite t f (extractBytes msg) (fullContentForMdWrite msg)
          (.jstr "info".data) (.jstr "cron".data) jobId jobId]
      | none => [])

/-- Signals produced by one content block of a session record
(lines 224–269): a `toolCall` block yields a tool_call event and possibly
md_write / email_sent / moltbook events. -/
def toolCallOpsFor (obj : Json) (t : Int) (sid : Str) (c : Json) : List Op :=
  if jget "type" c == some (Json.jstr "toolCall".data) && optTruthy (jget "name" c) then
    let nameJ := (jget "name" c).getD .jnull
    let rawArgs := jget "arguments" c
    let args := match firstTruthy [rawArgs] with
      | some a => a
      | none => .jobj []
    let argsStr := args.stringify
    [Op.plain
      { time := t, etype := "tool_call".data, category := nameJ,
        message := summarizePrompt argsStr, level := .jstr "info".data,
        subsystem := .jstr "session".data, runId := jget "id" obj,
        sessionId := some (.jstr sid) }]
    ++ (let toolName := stripFunctionsDot nameJ.jsToString
        if toolName == "write".data || toolName == "edit".data then
          let pathJ := firstNonNull
            [rawArgs.bind (jget "path"), rawArgs.bind (jget "file_path"),
             rawArgs.bind (jget "target")]
          let mdFile := match pathJ with
            | some p => if p.truthy then extractMdFile p.jsToString else extractMdFile argsStr
            | none => extractMdFile argsStr
          match mdFile with
          | some f =>
            let contentJ := rawArgs.bind (jget "content")
            let bytes : Option Nat := match contentJ with
              | some cv => if cv.truthy then some cv.jsToString.length else extractBytes argsStr
              | none => extractBytes argsStr
            let msgSrc : Str := match contentJ with
              | some cv => if cv.truthy then cv.jsToString else argsStr
              | none => argsStr
            [Op.mdWrite t f bytes (fullContentForMdWrite msgSrc)
              (.jstr "info".data) (.jstr "session".data) (jget "id" obj) (some (.jstr sid))]
          | none => []
        else [])
    ++ (if nameJ == Json.jstr "send_email".data || nameJ == Json.jstr "sessions_send".data then
          [Op.plain
            { time := t, etype := "email_sent".data, category := .jstr "email".data,
              message := summarizePrompt argsStr, level := .jstr "info".data,
              subsystem := .jstr "session".data, runId := jget "id" obj,
              sessionId := some (.jstr sid) }]
        else [])
    ++ (if nameJ == Json.jstr "exec".data &&
          (containsSub "moltbook".data argsStr || containsSub "moltbook.com".data argsStr) then
          (if moltbookPostArgsTest argsStr then
            [Op.plain
              { time := t, etype := "moltbook_post".data, category := .jstr "post".data,
                message := summarizePrompt argsStr, level := .jstr "info".data,
                subsystem := .jstr "session".data, runId := jget "id" obj,
                sessionId := some (.jstr sid) }]
          else [])
          ++ (if moltbookReplyArgsTest argsStr then
            [Op.plain
              { time := t, etype := "moltbook_comment".data,
                category := .jstr "comment".data, message := summarizePrompt argsStr,
                level := .jstr "info".data, subsystem := .jstr "session".data,
                runId := jget "id" obj, sessionId := some (.jstr sid) }]
          else [])
        else [])
  else []

/-- The toolResult branch (lines 309–356). -/
def toolResultOps (obj msgJ : Json) (t : Int) (sid : Str) : List Op :=
  if jget "role" msgJ == some (Json.jstr "toolResult".data) && optTruthy (jget "toolName" msgJ) then
    let toolNameJ := (jget "toolName" msgJ).getD .jnull
    let contentL : List Json := match firstTruthy [jget "content" msgJ] with
      | some (.jarr l) => l
      | some _ => []
      | none => []
    let resultText := List.intercalate " ".data (contentL.map fun x =>
      match jget "text" x with
      | some v => if v.truthy then v.jsToString else []
      | none => [])
    let isError : Bool := containsSub "error".data resultText ||
      containsSub "Error".data resultText || optTruthy (jget "isError" msgJ)
    let rt := lowerStr resultText
    let isProcExec : Bool :=
      toolNameJ == Json.jstr "process".data || toolNameJ == Json.jstr "exec".data
    [Op.plain
      { time := t, etype := (if isError then "failure".data else "success".data),
        category := toolNameJ,
        message := summarizePrompt (if !resultText.isEmpty then resultText
          else Json.stringify ((firstTruthy [jget "details" msgJ]).getD (.jobj []))),
        level := .jstr (if isError then "error".data else "info".data),
        subsystem := .jstr "session".data, runId := jget "id" obj,
        sessionId := some (.jstr sid) }]
    ++ (let toolName := stripFunctionsDot toolNameJ.jsToString
        if (toolName == "write".data || toolName == "edit".data) &&
            successWroteTest resultText then
          match extractMdFile resultText with
          | some f => [Op.mdWrite t f (extractBytes resultText)
              (fullContentForMdWrite resultText) (.jstr "info".data) (.jstr "session".data)
              (jget "id" obj) (some (.jstr sid))]
          | none => []
        else [])
    ++ (if isProcExec && containsSub "email".data rt &&
          (emailSentTest rt ||
            (match doneRespondedCapture resultText with
             | some n => decide (0 < n)
             | none => false)) then
          [Op.plain
            { time := t, etype := "email_sent".data, category := .jstr "email".data,
              message := summarizePrompt resultText, level := .jstr "info".data,
              subsystem := .jstr "session".data, runId := jget "id" obj,
              sessionId := some (.jstr sid) }]
        else [])
    ++ (if isProcExec &&
          (containsSub "moltbook".data rt || containsSub "moltbook.com".data rt) &&
          successPostTest rt then
          [Op.plain
            { time := t, etype := "moltbook_post".data, category := .jstr "post".data,
              message := summarizePrompt resultText, level := .jstr "info".data,
              subsystem := .jstr "session".data, runId := jget "id" obj,
              sessionId := some (.jstr sid) }]
        else [])
    ++ (if isProcExec &&
          (containsSub "moltbook".data rt || containsSub "moltbook.com".data rt) &&
          successCommentTest rt then
          [Op.plain
            { time := t, etype := "moltbook_comment".data,
              category := .jstr "comment".data, message := summarizePrompt resultText,
              level := .jstr "info".data, subsystem := .jstr "session".data,
              runId := jget "id" obj, sessionId := some (.jstr sid) }]
        else [])
  else []

/-- The session branch (lines 213–359). -/
def sessionOps (obj msgJ : Json) (t : Int) (sid : Str) : List Op :=
  let content : List Json := match firstTruthy [jget "content" msgJ] with
    | some (.jarr l) => l
    -- truthy non-array `content` would make the JS throw in `.map`; never exercised
    | some _ => []
    | none => []
  let fullText := List.intercalate " ".data
    (((content.map fun c =>
        match c with
        | .jobj _ | .jarr _ =>
          match firstTruthy [jget "text" c, jget "thinking" c] with
          | some v => v
          | none => .jstr c.stringify
        | prim => .jstr prim.jsToString).filter Json.truthy).map Json.jsToString)
  (content.flatMap (toolCallOpsFor obj t sid))
  ++ (if jget "role" msgJ == some (Json.jstr "user".data) && !(trimStr fullText).isEmpty then
        let cleanText := extractUserMessageText fullText
        let displayMsg := if cleanText.length > 1500 then cleanText.take 1500 ++ ['…'] else cleanText
        [Op.plain
          { time := t, etype := "user_message".data, category := .jstr "user".data,
            message := displayMsg, level := .jstr "info".data,
            subsystem := .jstr "session".data, runId := jget "id" obj,
            sessionId := some (.jstr sid), role := some "user".data,
            embeddingText := some (if cleanText.length > 512 then cleanText.take 512 else cleanText) }]
      else [])
  ++ (if jget "role" msgJ == some (Json.jstr "assistant".data) && !(trimStr fullText).isEmpty then
        let cleanText := buildAssistantMessageText content
        let displayMsg := if cleanText.length > 1500 then cleanText.take 1500 ++ ['…'] else cleanText
        [Op.plain
          { time := t, etype := "assistant_message".data,
            category := .jstr "assistant".data, message := displayMsg,
            level := .jstr "info".data, subsystem := .jstr "session".data,
            runId := jget "id" obj, sessionId := some (.jstr sid),
            role := some "assistant".data,
            embeddingText := some (if cleanText.length > 512 then cleanText.take 512 else cleanText) }]
      else [])
  ++ toolResultOps obj msgJ t sid

/-- `processJsonlEvent` as a pure op-list producer. -/
def processJsonlOps (obj : Json) (sid : Str) (isCron : Bool) : List Op :=
  match tsUsable (getTimestamp obj) with
  | none => []
  | some t =>
    if isCron then cronOps obj t
    else
      match jget "message" obj with
      | some msgJ => if msgJ.truthy then sessionOps obj msgJ t sid else []
      | none => []

/-! ## The plain-log branch of `processLogFile` (lines 377–476) -/

def processPlainOps (obj : Json) : List Op :=
  match tsUsable (getTimestamp obj) with
  | none => []
  | some t =>
    let msg := getMessage obj
    if msg.isEmpty then []
    else
      let level := getLevel obj
      let subsystem := getSubsystem obj
      let runId := (extractRunId msg).map (Json.jstr ·)
      let sessionId := (extractSessionId msg).map (Json.jstr ·)
      -- MD file write / update (only if the message indicates a write, not a read)
      let isWrite := writeVerbTest (lowerStr msg) || (extractBytes msg).isSome
      (match extractMdFile msg with
       | some f =>
         if isWrite then
           [Op.mdWrite t f (extractBytes msg) (fullContentForMdWrite msg)
             level subsystem runId sessionId]
         else []
       | none => [])
      ++ (match extractToolName msg with
          | some tool =>
            if containsSub "tool start".data msg || containsSub "run tool".data msg ||
                containsSub "tool_call".data msg then
              [Op.plain
                { time := t, etype := "tool_call".data, category := .jstr tool,
                  message := summarizePrompt msg, level, subsystem, runId, sessionId }]
            else []
          | none => [])
      ++ (if containsSub "run agent start".data msg || containsSub "run agent end".data msg then
            [Op.plain
              { time := t, etype := "run_lifecycle".data,
                category := .jstr (if containsSub "start".data msg then "start".data else "end".data),
                message := summarizePrompt msg, level, subsystem, runId, sessionId }]
          else [])
      ++ (if containsSub "heartbeat".data (lowerStr msg) &&
            !containsSub "HEARTBEAT.md".data msg then
            [Op.plain
              { time := t, etype := "heartbeat".data, category := .jstr "heartbeat".data,
                message := summarizePrompt msg, level, subsystem, runId, sessionId }]
          else [])
      ++ (if level == Json.jstr "error".data || level == Json.jstr "fatal".data ||
            containsSub "failed".data (lowerStr msg) || containsSub "error".data (lowerStr msg) then
            [Op.plain
              { time := t, etype := "failure".data, category := .jstr "error".data,
                message := summarizePrompt msg, level, subsystem, runId, sessionId }]
          else [])
      ++ (if containsSub "HEARTBEAT_OK".data msg ||
            containsSub "completed successfully".data msg ||
            containsSub "run agent end".data msg then
            [Op.plain
              { time := t, etype := "success".data, category := .jstr "success".data,
                message := summarizePrompt msg, level, subsystem, runId, sessionId }]
          else [])

/-! ## Per-line dispatch, files, and the whole extraction run -/

/-- The format dispatch of `processLogFile` (line 372). -/
def processLineOps (isCron : Bool) (sessionBase : Str) (obj : Json) : List Op :=
  if jget "type" obj == some (Json.jstr "message".data) ||
      jget "type" obj == some (Json.jstr "session".data) ||
      (isCron && (optTruthy (jget "ts" obj) || optTruthy (jget "runAtMs" obj))) then
    processJsonlOps obj sessionBase isCron
  else
    processPlainOps obj

/-- One input file: its path and its non-empty lines after `JSON.parse`
(`none` = unparseable line, skipped). -/
structure LogFile where
  path : Str
  lines : List (Option Json)

/-- `path.basename(filePath, path.extname(filePath))`. -/
def basenameNoExt (p : Str) : Str :=
  let b := (p.splitOn '/').getLastD []
  let tailLen := (b.reverse.takeWhile (fun c => c ≠ '.')).length
  if tailLen < b.length then
    let dotPos := b.length - tailLen - 1
    -- a leading dot (".bashrc") or ".." has empty extname in Node
    if dotPos = 0 || b = "..".data then b else b.take dotPos
  else b

def fileOps (f : LogFile) : List Op :=
  let isCron := containsSub "cron_snap".data f.path
  let base := basenameNoExt f.path
  f.lines.flatMap fun o =>
    match o with
    | some j => processLineOps isCron base j
    | none => []

/-- The global accumulators before any file is processed: empty `events`,
the fixed watch-list at zero. -/
def initState : ParseState :=
  { events := [],
    mdWriteCounts := MD_FILES.map (fun f => (f, 0)),
    mdWriteBytes := MD_FILES.map (fun f => (f, 0)) }

def allOps (files : List LogFile) : List Op := files.flatMap fileOps

/-- State after the file-processing loop (lines 488–490). -/
def classifyAll (files : List LogFile) : ParseState := applyOps (allOps files) initState

/-! ## Dedup, sort, summary, output (lines 495–531) -/

/-- Stable first-occurrence dedup with an explicit seen-set (the JS
`Set`-based filter). -/
def dedupByKey {α κ : Type} (key : α → κ) [DecidableEq κ] (seen : List κ) : List α → List α
  | [] => []
  | e :: rest =>
    if key e ∈ seen then dedupByKey key seen rest
    else e :: dedupByKey key (key e :: seen) rest

/-- The dedup key `` `${e.time}|${e.type}|${e.category}|${e.message}` ``.
The `time` component is the ISO rendering of the epoch value — injective
and free of `'|'` — so the pair below has exactly the same collisions as
the JS key string; the template literal coerces `category` with
`String(·)`. -/
def dedupKey (e : Event) : Int × Str :=
  (e.time, e.etype ++ '|' :: (e.category.jsToString ++ '|' :: e.message))

def dedupEvents (l : List Event) : List Event := dedupByKey dedupKey [] l

/-- Stable insertion of `x` after every element with a strictly smaller
time: the behaviour of the stable `Array.prototype.sort` with comparator
`new Date(a.time) - new Date(b.time)` (ES2019 requires sort stability). -/
def insertByTime (x : Event) : List Event → List Event
  | [] => [x]
  | y :: ys => if y.time < x.time then y :: insertByTime x ys else x :: y :: ys

def sortByTime : List Event → List Event
  | [] => []
  | x :: xs => insertByTime x (sortByTime xs)

structure Summary where
  mdWriteCounts : List (Str × Nat)
  mdWriteBytes : List (Str × Nat)
  emailSentCount : Nat
  moltbookPostCount : Nat
  moltbookCommentCount : Nat
  totalEvents : Nat
  eventTypes : List Str
  timeRange : Option (Int × Int)
deriving DecidableEq

structure Output where
  events : List Event
  summary : Summary
deriving DecidableEq

/-- The `activityCounts`/`summary` block (lines 506–525); `eventTypes` is
`[...new Set(...)]` (first-occurrence order), `timeRange` takes the first
and last element of the sorted array. -/
def mkSummary (uniq : List Event) (st : ParseState) : Summary :=
  { mdWriteCounts := st.mdWriteCounts,
    mdWriteBytes := st.mdWriteBytes,
    emailSentCount := uniq.countP (fun e => e.etype == "email_sent".data),
    moltbookPostCount := uniq.countP (fun e => e.etype == "moltbook_post".data),
    moltbookCommentCount := uniq.countP (fun e => e.etype == "moltbook_comment".data),
    totalEvents := uniq.length,
    eventTypes := dedupByKey id [] (uniq.map (·.etype)),
    timeRange :=
      match uniq.head?, uniq.getLast? with
      | some a, some b => some (a.time, b.time)
      | _, _ => none }

/-- The whole extraction run: classify every line of every file, dedup,
sort, summarize, and write `{ events, summary }`. -/
def runPipeline (files : List LogFile) : Output :=
  let st := classifyAll files
  let sorted := sortByTime (dedupEvents st.events)
  { events := sorted, summary := mkSummary sorted st }

/-! ## `slim-events.js` -/

def MAX_MESSAGE_LEN : Nat := 400

def MAX_MESSAGE_LEN_MD_WRITE : Nat := 50000

def slimCap (etype : Str) : Nat :=
  if etype = "md_write".data then MAX_MESSAGE_LEN_MD_WRITE else MAX_MESSAGE_LEN

/-- `slimEvent`: the rest-spread drops `embedding` and `embeddingText`;
the message is truncated to the type-dependent cap with an appended
ellipsis.  (`rest.message ?? ""` — in this model `message` is always a
string.) -/
def slimEvent (e : Event) : Event :=
  { e with
      embedding := none, embeddingText := none,
      message :=
        if e.message.length > slimCap e.etype then e.message.take (slimCap e.etype) ++ ['…']
        else e.message }

def slimOutput (o : Output) : Output :=
  { events := o.events.map slimEvent, summary := o.summary }

/-! ## `build-standalone.js`: secret redaction

`redactSecrets` is a chain of six global regex replacements, each
substituting `"[REDACTED]"` for every match.  Each regex is compiled to a
head matcher (`Option Char` is the character before the position, for
`\b` look-behind; the result is the match length) and run by a scanner
with exact `replace(/…/g)` semantics: leftmost match, greedy
quantifiers, resume after the match end. -/

def REDACTED : Str := "[REDACTED]".data

/-- The class `[A-Za-z0-9\\|_"$]` of the `ghp_` pattern (inside a class,
`\\` is a literal backslash and `|`, `"`, `$` are literal). -/
def isGhpClassC (c : Char) : Bool :=
  isAlnumC c || c = '\\' || c = '|' || c = '_' || c = '"' || c = '$'

/-- `/ghp_[A-Za-z0-9\\|_"$]+/` at the current position. -/
def ghpMatch (_ : Option Char) (l : Str) : Option Nat :=
  if "ghp_".data.isPrefixOf l then
    let run := countWhile isGhpClassC (l.drop 4)
    if run ≥ 1 then some (4 + run) else none
  else none

/-- `/github_pat_[A-Za-z0-9_]+/` at the current position. -/
def githubPatMatch (_ : Option Char) (l : Str) : Option Nat :=
  if "github_pat_".data.isPrefixOf l then
    let run := countWhile isWordC (l.drop 11)
    if run ≥ 1 then some (11 + run) else none
  else none

/-- Wordness of a character in the `[\w-]` classes: `-` is in the class
but is not a word character, which matters for the trailing `\b`. -/
def isWordAt : Option Char → Bool
  | none => false
  | some c => isWordC c

/-- Greedy backtracking for a trailing `[\w-]{m,}\b`: the largest
`k ≥ m` (at most `r`, the full class run) such that a word boundary falls
after the `k`-th run character.  `run` is the full run, `next` the first
character after it (`none` at end of string). -/
def findBCut (run : Str) (next : Option Char) : Nat → Option Nat
  | k =>
    if h : k < 27 then none
    else
      let after := if k = run.length then isWordAt next else isWordAt (run.get? k)
      let last := isWordAt (run.get? (k - 1))
      if last ≠ after then some k
      else findBCut run next (k - 1)
termination_by k => k
decreasing_by omega

/-- `/\b[MN][A-Za-z\d]{23,}\.[\w-]{6}\.[\w-]{27,}\b/` at the current
position (Discord bot token). -/
def discordMatch (prev : Option Char) (l : Str) : Option Nat :=
  match l with
  | c :: rest =>
    if (c = 'M' || c = 'N') && prevNonWord prev then
      let r1 := countWhile isAlnumC rest
      if r1 ≥ 23 then
        match rest.drop r1 with
        | '.' :: l3 =>
          if (l3.take 6).length = 6 && (l3.take 6).all isWordDashC then
            match l3.drop 6 with
            | '.' :: l4 =>
              let r2 := countWhile isWordDashC l4
              if r2 ≥ 27 then
                match findBCut (l4.take r2) ((l4.drop r2).head?) r2 with
                | some k => some (1 + r1 + 1 + 6 + 1 + k)
                | none => none
              else none
            | _ => none
          else none
        | _ => none
      else none
    else none
  | [] => none

/-- `/\b[A-Za-z0-9_-]{59,}\.[A-Za-z0-9_-]{6}\.[A-Za-z0-9_-]{27}\b/` at the
current position (generic long token; the trailing `{27}` is exact). -/
def genericTokenMatch (prev : Option Char) (l : Str) : Option Nat :=
  let r1 := countWhile isWordDashC l
  if r1 ≥ 59 then
    match l.head? with
    | some c0 =>
      if isWordAt prev ≠ (isWordC c0) then
        match l.drop r1 with
        | '.' :: l3 =>
          if (l3.take 6).length = 6 && (l3.take 6).all isWordDashC then
            match l3.drop 6 with
            | '.' :: l4 =>
              if (l4.take 27).length = 27 && (l4.take 27).all isWordDashC then
                -- trailing \b between the 27th run character and what follows
                if isWordAt (l4.get? 26) ≠ isWordAt (l4.get? 27) then
                  some (r1 + 1 + 6 + 1 + 27)
                else none
              else none
            | _ => none
          else none
        | _ => none
      else none
    | none => none
  else none

/-- `/sk-[A-Za-z0-9]{48,}/` at the current position. -/
def skMatch (_ : Option Char) (l : Str) : Option Nat :=
  if "sk-".data.isPrefixOf l then
    let run := countWhile isAlnumC (l.drop 3)
    if run ≥ 48 then some (3 + run) else none
  else none

/-- `/sk-proj-[A-Za-z0-9]{48,}/` at the current position. -/
def skProjMatch (_ : Option Char) (l : Str) : Option Nat :=
  if "sk-proj-".data.isPrefixOf l then
    let run := countWhile isAlnumC (l.drop 8)
    if run ≥ 48 then some (8 + run) else none
  else none

/-- `text.replace(regex-with-g, "[REDACTED]")`: scan left to right; on a
match emit the marker and resume after it (the look-behind character of
the resumed scan is the last character of the match, as the regex engine
sees the original string); otherwise keep the character. -/
def redactScan (m : Option Char → Str → Option Nat) : Option Char → Str → Str
  | _, [] => []
  | prev, c :: rest =>
    match m prev (c :: rest) with
    | some n =>
      if h : 1 ≤ n then
        REDACTED ++ redactScan m ((c :: rest).get? (n - 1)) ((c :: rest).drop n)
      else c :: redactScan m (some c) rest
    | none => c :: redactScan m (some c) rest
termination_by _ l => l.length
decreasing_by
  · simp only [List.length_drop, List.length_cons]
    omega
  all_goals simp

/-- `redactSecrets`: the six replacements in source order. -/
def redactSecrets (s : Str) : Str :=
  redactScan skProjMatch none
    (redactScan skMatch none
      (redactScan genericTokenMatch none
        (redactScan discordMatch none
          (redactScan githubPatMatch none
            (redactScan ghpMatch none s)))))

mutual

/-- `redactObject`: redact every string value recursively; arrays and
objects are rebuilt, every other value is returned unchanged. -/
def redactObject : Json → Json
  | .jstr s => .jstr (redactSecrets s)
  | .jarr l => .jarr (redactObjectList l)
  | .jobj fs => .jobj (redactObjectFields fs)
  | j => j

def redactObjectList : List Json → List Json
  | [] => []
  | x :: rest => redactObject x :: redactObjectList rest

def redactObjectFields : List (String × Json) → List (String × Json)
  | [] => []
  | (k, v) :: rest => (k, redactObject v) :: redactObjectFields rest

end

/-- The top-level deploy transform (lines 50–56 of
`build-standalone.js`): `data.events = (data.events || []).map(redactObject)`
and `data.summary = redactObject(data.summary)`. -/
def deployRedact (events : List Json) (summary : Json) : List Json × Json :=
  (events.map redactObject, redactObject summary)

/-- A substring of `l` matching the token shape `pat[cls]+` (the fixed
prefix `pat` followed by at least one character of the class `cls`): the
shape of the `ghp_…` and `github_pat_…` patterns of `redactSecrets`. -/
def tokOcc (pat : Str) (cls : Char → Bool) (l : Str) : Prop :=
  ∃ a d b, l = a ++ pat ++ d :: b ∧ cls d = true

/-- The token shape `pat[cls]+` matches at position 0. -/
def tokPrefix (pat : Str) (cls : Char → Bool) (t : Str) : Prop :=
  ∃ d b, t = pat ++ d :: b ∧ cls d = true

/-- No suffix of `l` starts with a `pat[cls]+` token (no occurrence). -/
def noTok (pat : Str) (cls : Char → Bool) (l : Str) : Prop :=
  ∀ t, t <:+ l → ¬ tokPrefix pat cls t

/-! ## Lemmas about the dedup pass -/

section Dedup

variable {α κ : Type} (key : α → κ) [DecidableEq κ]

theorem dedupByKey_sublist (seen : List κ) (l : List α) :
    (dedupByKey key seen l).Sublist l := by
  induction l generalizing seen with
  | nil => simp [dedupByKey]
  | cons e rest ih =>
    simp only [dedupByKey]
    split
    · exact (ih seen).cons e
    · exact (ih _).cons₂ e

theorem dedupByKey_mem_first (seen : List κ) (l : List α) (e : α)
    (he : e ∈ dedupByKey key seen l) :
    key e ∉ seen ∧ l.find? (fun c => decide (key c = key e)) = some e := by
  induction l generalizing seen with
  | nil => simp [dedupByKey] at he
  | cons c rest ih =>
    simp only [dedupByKey] at he
    by_cases hc : key c ∈ seen
    · rw [if_pos hc] at he
      obtain ⟨hnot, hfind⟩ := ih seen he
      refine ⟨hnot, ?_⟩
      have hne : key c ≠ key e := fun h => hnot (h ▸ hc)
      simp only [List.find?]
      rw [decide_eq_false hne]
      exact hfind
    · rw [if_neg hc] at he
      rcases List.mem_cons.mp he with rfl | he
      · exact ⟨hc, by simp [List.find?]⟩
      · obtain ⟨hnot, hfind⟩ := ih (key c :: seen) he
        have hne : key c ≠ key e := fun h => hnot (by simp [h])
        have hnot' : key e ∉ seen := fun h => hnot (List.mem_cons_of_mem _ h)
        refine ⟨hnot', ?_⟩
        simp only [List.find?]
        rw [decide_eq_false hne]
        exact hfind

theorem dedupByKey_mem_not_seen (seen : List κ) (l : List α) (e : α)
    (he : e ∈ dedupByKey key seen l) : key e ∉ seen :=
  (dedupByKey_mem_first key seen l e he).1

theorem dedupByKey_pairwise (seen : List κ) (l : List α) :
    (dedupByKey key seen l).Pairwise (fun a b => key a ≠ key b) := by
  induction l generalizing seen with
  | nil => simp [dedupByKey]
  | cons c rest ih =>
    simp only [dedupByKey]
    split
    · exact ih seen
    · refine List.Pairwise.cons (fun b hb => ?_) (ih _)
      have := dedupByKey_mem_not_seen key _ _ _ hb
      exact fun h => this (by simp [h])

theorem dedupByKey_mem_of_mem (seen : List κ) (l : List α) (x : α)
    (hx : x ∈ l) (hns : key x ∉ seen) :
    ∃ y ∈ dedupByKey key seen l, key y = key x := by
  induction l generalizing seen with
  | nil => cases hx
  | cons c rest ih =>
    simp only [dedupByKey]
    by_cases hc : key c ∈ seen
    · rw [if_pos hc]
      rcases List.mem_cons.mp hx with rfl | hx
      · exact absurd hc hns
      · exact ih seen hx hns
    · rw [if_neg hc]
      rcases List.mem_cons.mp hx with rfl | hx
      · exact ⟨x, List.mem_cons_self _ _, rfl⟩
      · by_cases hk : key x = key c
        · exact ⟨c, List.mem_cons_self _ _, hk.symm⟩
        · obtain ⟨y, hy, hky⟩ := ih (key c :: seen) hx (by simp [hns, hk])
          exact ⟨y, List.mem_cons_of_mem _ hy, hky⟩

end Dedup

/-- A first-match search by a coarser predicate agrees with the search by
a finer one: if equality of `tup` implies equality of `key` and the
first `key`-match of `l` is `e`, then the first `tup`-match is also `e`
(provided `tup e = tup e` holds of `e` itself, which it does). -/
theorem find_tup_of_find_key {α κ₁ κ₂ : Type} (key : α → κ₁) (tup : α → κ₂)
    [DecidableEq κ₁] [DecidableEq κ₂]
    (htk : ∀ a b : α, tup a = tup b → key a = key b)
    (l : List α) (e : α)
    (h : l.find? (fun c => decide (key c = key e)) = some e) :
    l.find? (fun c => decide (tup c = tup e)) = some e := by
  induction l with
  | nil => simp [List.find?] at h
  | cons c rest ih =>
    by_cases ht : tup c = tup e
    · have hk : key c = key e := htk _ _ ht
      simp only [List.find?, decide_eq_true hk] at h
      simp only [List.find?, decide_eq_true ht]
      exact h
    · simp only [List.find?, decide_eq_false ht]
      by_cases hk : key c = key e
      · simp only [List.find?, decide_eq_true hk, Option.some.injEq] at h
        exact absurd (h ▸ rfl) ht
      · simp only [List.find?, decide_eq_false hk] at h
        exact ih h

/-! ## Lemmas about the sort pass -/

/-- `a` sorts no later than `b`. -/
def timeLE (a b : Event) : Prop := a.time ≤ b.time

theorem insertByTime_perm (x : Event) (l : List Event) :
    (insertByTime x l).Perm (x :: l) := by
  induction l with
  | nil => simp [insertByTime]
  | cons y ys ih =>
    simp only [insertByTime]
    split
    · exact (ih.cons y).trans (List.Perm.swap x y ys)
    · exact List.Perm.refl _

theorem sortByTime_perm (l : List Event) : (sortByTime l).Perm l := by
  induction l with
  | nil => simp [sortByTime]
  | cons x xs ih =>
    exact (insertByTime_perm x (sortByTime xs)).trans (ih.cons x)

theorem insertByTime_pairwise (x : Event) (l : List Event)
    (hl : l.Pairwise timeLE) : (insertByTime x l).Pairwise timeLE := by
  induction l with
  | nil => simp [insertByTime, List.Pairwise.cons]
  | cons y ys ih =>
    rcases List.pairwise_cons.mp hl with ⟨hy, hys⟩
    simp only [insertByTime]
    split
    · rename_i hlt
      refine List.pairwise_cons.mpr ⟨fun z hz => ?_, ih hys⟩
      rcases List.mem_cons.mp ((insertByTime_perm x ys).mem_iff.mp hz) with rfl | hz
      · exact le_of_lt hlt
      · exact hy z hz
    · rename_i hnlt
      refine List.pairwise_cons.mpr ⟨fun z hz => ?_, hl⟩
      rcases List.mem_cons.mp hz with rfl | hz
      · exact le_of_not_lt hnlt
      · exact le_trans (le_of_not_lt hnlt) (hy z hz)

theorem sortByTime_pairwise (l : List Event) : (sortByTime l).Pairwise timeLE := by
  induction l with
  | nil => simp [sortByTime]
  | cons x xs ih => exact insertByTime_pairwise x _ ih

theorem filter_insertByTime (x : Event) (l : List Event) (t : Int) :
    (insertByTime x l).filter (fun e => e.time == t) =
      (if x.time == t then [x] else []) ++ l.filter (fun e => e.time == t) := by
  induction l with
  | nil => cases h : (x.time == t) <;> simp [insertByTime, List.filter, h]
  | cons y ys ih =>
    simp only [insertByTime]
    split
    · rename_i hlt
      have hyt : (y.time == t) = false ∨ (y.time == t) = true := by
        cases (y.time == t) <;> simp
      by_cases hx : (x.time == t) = true
      · have : (y.time == t) = false := by
          rcases hyt with h | h
          · exact h
          · exfalso
            have hy' : y.time = t := by simpa using h
            have hx' : x.time = t := by simpa using hx
            omega
        simp only [List.filter, this, ih, hx]
      · have hx' : (x.time == t) = false := by simpa using hx
        simp only [List.filter, ih, hx']
        cases h : (y.time == t) <;> simp [h]
    · simp only [List.filter]
      cases hx : (x.time == t) <;> cases hy : (y.time == t) <;> simp [hx, hy, List.filter]

theorem filter_sortByTime (l : List Event) (t : Int) :
    (sortByTime l).filter (fun e => e.time == t) = l.filter (fun e => e.time == t) := by
  induction l with
  | nil => simp [sortByTime]
  | cons x xs ih =>
    simp only [sortByTime, filter_insertByTime, ih, List.filter]
    cases hx : (x.time == t) <;> simp [hx]

/-! ## Lemmas about the classification state -/

theorem applyOps_events (ops : List Op) (st : ParseState) :
    (applyOps ops st).events = st.events ++ ops.map Op.event := by
  induction ops generalizing st with
  | nil => simp [applyOps]
  | cons op rest ih =>
    have step : (op.apply st).events = st.events ++ [op.event] := by
      cases op <;> simp [Op.apply, Op.event]
    simp [applyOps] at ih ⊢
    rw [ih, step, List.append_assoc]
    rfl

theorem applyOps_mdWriteCounts (ops : List Op) (st : ParseState) :
    (applyOps ops st).mdWriteCounts = ops.foldl
      (fun acc op =>
        match op with
        | .plain _ => acc
        | .mdWrite _ f _ _ _ _ _ _ => bumpAssoc f 1 acc)
      st.mdWriteCounts := by
  induction ops generalizing st with
  | nil => simp [applyOps]
  | cons op rest ih =>
    simp only [applyOps, List.foldl] at ih ⊢
    rw [ih]
    cases op <;> rfl

theorem lookup_map_const_zero (f : Str) (l : List Str) :
    lookupCount f (l.map (fun g => (g, 0))) = 0 := by
  induction l with
  | nil => simp [lookupCount, List.lookup]
  | cons a rest ih =>
    simp only [List.map, lookupCount, List.lookup]
    cases h : (f == a) <;> simp [h, lookupCount] at ih ⊢
    exact ih

theorem any_eq_false_lookup_none (k : Str) (l : List (Str × Nat))
    (h : l.any (fun p => p.1 == k) = false) : l.lookup k = none := by
  induction l with
  | nil => rfl
  | cons p rest ih =>
    simp only [List.any, Bool.or_eq_false_iff] at h
    simp only [List.lookup]
    have : (k == p.1) = false := by
      cases hp : (p.1 == k)
      · cases hk : (k == p.1)
        · rfl
        · exact absurd (by simpa using hk : k = p.1) (fun he => by simp [he] at hp)
      · simp [hp] at h
    rw [this]
    exact ih h.2

theorem lookup_map_bump (k : Str) (n : Nat) (f : Str) (l : List (Str × Nat)) :
    (l.map (fun p => if p.1 == k then (p.1, p.2 + n) else p)).lookup f =
      (l.lookup f).map (fun m => if k = f then m + n else m) := by
  induction l with
  | nil => rfl
  | cons p rest ih =>
    obtain ⟨a, m⟩ := p
    have hbump : (if ((a, m).1 == k) = true then ((a, m).1, (a, m).2 + n) else (a, m)) =
        (a, if a = k then m + n else m) := by
      by_cases h : a = k <;> simp [h]
    simp only [List.map, hbump]
    by_cases hfa : f = a
    · have h1 : (f == a) = true := by simp [hfa]
      simp only [List.lookup, h1]
      have : (if a = k then m + n else m) = (if k = f then m + n else m) := by
        by_cases hak : a = k
        · rw [if_pos hak, if_pos (by rw [hfa, ← hak])]
        · rw [if_neg hak, if_neg (fun h => hak (h.trans hfa).symm)]
      rw [this]
      rfl
    · have h1 : (f == a) = false := by simp [hfa]
      simp only [List.lookup, h1]
      exact ih

theorem lookup_mem_some (k : Str) (l : List (Str × Nat)) (p : Str × Nat)
    (hp : p ∈ l) (hk : p.1 = k) : ∃ m, l.lookup k = some m := by
  induction l with
  | nil => cases hp
  | cons q rest ih =>
    by_cases hq : k = q.1
    · exact ⟨q.2, by simp [List.lookup, hq]⟩
    · have hq' : (k == q.1) = false := by simp [hq]
      rcases List.mem_cons.mp hp with rfl | hp
      · exact absurd hk.symm hq
      · obtain ⟨m, hm⟩ := ih hp
        exact ⟨m, by simp [List.lookup, hq', hm]⟩

theorem lookup_append_singleton (k f : Str) (n : Nat) (l : List (Str × Nat)) :
    (l ++ [(k, n)]).lookup f =
      match l.lookup f with
      | some m => some m
      | none => if f == k then some n else none := by
  induction l with
  | nil => cases h : (f == k) <;> simp [List.lookup, h]
  | cons q rest ih =>
    obtain ⟨a, m⟩ := q
    simp only [List.cons_append, List.lookup]
    cases hq : (f == a) <;> simp [ih]

theorem lookup_bumpAssoc (k : Str) (n : Nat) (l : List (Str × Nat)) (f : Str) :
    lookupCount f (bumpAssoc k n l) =
      lookupCount f l + (if k = f then n else 0) := by
  unfold bumpAssoc
  split
  · rename_i hany
    rw [lookupCount, lookup_map_bump, lookupCount]
    by_cases hkf : k = f
    · have hsome : ∃ m, l.lookup f = some m := by
        rcases List.any_eq_true.mp hany with ⟨p, hp, hpk⟩
        exact lookup_mem_some f l p hp (by rw [← hkf]; simpa using hpk)
      obtain ⟨m, hm⟩ := hsome
      rw [hm, if_pos hkf]
      simp [hkf]
    · rw [if_neg hkf]
      cases hl : l.lookup f <;> simp [hkf]
  · rename_i hany
    have hnone : l.lookup k = none :=
      any_eq_false_lookup_none k l (Bool.not_eq_true _ ▸ eq_false_of_ne_true hany)
    rw [lookupCount, lookupCount, lookup_append_singleton]
    by_cases hkf : k = f
    · rw [← hkf, hnone]
      have : (k == k) = true := by simp
      simp [this, hkf]
    · cases hl : l.lookup f with
      | some m => simp [hkf]
      | none =>
        have : (f == k) = false := by
          simp only [beq_eq_false_iff_ne, ne_eq]
          exact fun h => hkf h.symm
        simp [this, hkf]

/-! ## Structural facts about every classification signal

Every event the extractor builds is "fresh": the enrichment fields
(`summary`, `modSummary`, `sentiment`, `embedding`) are absent — no
classification site ever sets them — and only the md-write sites produce
events of type `md_write`. -/

def EventFresh (e : Event) : Prop :=
  e.summary = none ∧ e.modSummary = none ∧ e.sentiment = none ∧ e.embedding = none

def OpGood (op : Op) : Prop :=
  EventFresh op.event ∧
    (match op with
     | .plain e => e.etype ≠ "md_write".data
     | .mdWrite _ _ _ _ _ _ _ _ => True)

theorem etype_ne_md (s : String) (h : decide (s.data = "md_write".data) = false) :
    s.data ≠ "md_write".data := of_decide_eq_false h

theorem forall_mem_singleton_op {P : Op → Prop} {e : Op} (h : P e) : ∀ x ∈ [e], P x := by
  intro x hx
  rcases List.mem_singleton.mp hx with rfl
  exact h

theorem forall_mem_ite_nil {c : Prop} [Decidable c] {P : Op → Prop} {l : List Op}
    (h : ∀ x ∈ l, P x) : ∀ x ∈ (if c then l else []), P x := by
  split
  · exact h
  · intro x hx
    cases hx

theorem forall_mem_nil_op {P : Op → Prop} : ∀ x ∈ ([] : List Op), P x := by
  intro x hx
  cases hx

theorem cronOps_good (obj : Json) (t : Int) : ∀ op ∈ cronOps obj t, OpGood op := by
  simp only [cronOps]
  refine List.forall_mem_append.mpr ⟨List.forall_mem_append.mpr
    ⟨List.forall_mem_append.mpr ⟨?_, ?_⟩, ?_⟩, ?_⟩
  · exact forall_mem_singleton_op ⟨⟨rfl, rfl, rfl, rfl⟩, etype_ne_md "cron" rfl⟩
  · exact forall_mem_ite_nil
      (forall_mem_singleton_op ⟨⟨rfl, rfl, rfl, rfl⟩, etype_ne_md "email_sent" rfl⟩)
  · exact forall_mem_ite_nil (forall_mem_ite_nil
      (forall_mem_singleton_op ⟨⟨rfl, rfl, rfl, rfl⟩, etype_ne_md "moltbook_post" rfl⟩))
  ·
    intro x hx
    split at hx
    · rcases List.mem_singleton.mp hx with rfl
      exact ⟨⟨rfl, rfl, rfl, rfl⟩, trivial⟩
    · cases hx

theorem toolCallOpsFor_good (obj : Json) (t : Int) (sid : Str) (c : Json) :
    ∀ op ∈ toolCallOpsFor obj t sid c, OpGood op := by
  simp only [toolCallOpsFor]
  split
  · refine List.forall_mem_append.mpr ⟨List.forall_mem_append.mpr
      ⟨List.forall_mem_append.mpr ⟨?_, ?_⟩, ?_⟩, ?_⟩
    · exact forall_mem_singleton_op ⟨⟨rfl, rfl, rfl, rfl⟩, etype_ne_md "tool_call" rfl⟩
    · split
      ·
        intro x hx
        split at hx
        · rcases List.mem_singleton.mp hx with rfl
          exact ⟨⟨rfl, rfl, rfl, rfl⟩, trivial⟩
        · cases hx
      · exact forall_mem_nil_op
    · exact forall_mem_ite_nil
        (forall_mem_singleton_op ⟨⟨rfl, rfl, rfl, rfl⟩, etype_ne_md "email_sent" rfl⟩)
    · refine forall_mem_ite_nil (List.forall_mem_append.mpr ⟨?_, ?_⟩)
      · exact forall_mem_ite_nil
          (forall_mem_singleton_op ⟨⟨rfl, rfl, rfl, rfl⟩, etype_ne_md "moltbook_post" rfl⟩)
      · exact forall_mem_ite_nil
          (forall_mem_singleton_op ⟨⟨rfl, rfl, rfl, rfl⟩, etype_ne_md "moltbook_comment" rfl⟩)
  · exact forall_mem_nil_op

theorem toolResultOps_good (obj msgJ : Json) (t : Int) (sid : Str) :
    ∀ op ∈ toolResultOps obj msgJ t sid, OpGood op := by
  simp only [toolResultOps]
  split
  · refine List.forall_mem_append.mpr ⟨List.forall_mem_append.mpr
      ⟨List.forall_mem_append.mpr ⟨List.forall_mem_append.mpr ⟨?_, ?_⟩, ?_⟩, ?_⟩, ?_⟩
    · refine forall_mem_singleton_op ⟨⟨rfl, rfl, rfl, rfl⟩, ?_⟩
      have h2 : ∀ b : Bool,
          ((if b then "failure".data else "success".data) : Str) ≠ "md_write".data := by
        intro b
        cases b
        · exact etype_ne_md "success" rfl
        · exact etype_ne_md "failure" rfl
      exact h2 _
    · split
      ·
        intro x hx
        split at hx
        · rcases List.mem_singleton.mp hx with rfl
          exact ⟨⟨rfl, rfl, rfl, rfl⟩, trivial⟩
        · cases hx
      · exact forall_mem_nil_op
    · exact forall_mem_ite_nil
        (forall_mem_singleton_op ⟨⟨rfl, rfl, rfl, rfl⟩, etype_ne_md "email_sent" rfl⟩)
    · exact forall_mem_ite_nil
        (forall_mem_singleton_op ⟨⟨rfl, rfl, rfl, rfl⟩, etype_ne_md "moltbook_post" rfl⟩)
    · exact forall_mem_ite_nil
        (forall_mem_singleton_op ⟨⟨rfl, rfl, rfl, rfl⟩, etype_ne_md "moltbook_comment" rfl⟩)
  · exact forall_mem_nil_op

theorem sessionOps_good (obj msgJ : Json) (t : Int) (sid : Str) :
    ∀ op ∈ sessionOps obj msgJ t sid, OpGood op := by
  simp only [sessionOps]
  refine List.forall_mem_append.mpr ⟨List.forall_mem_append.mpr
    ⟨List.forall_mem_append.mpr ⟨?_, ?_⟩, ?_⟩, ?_⟩
  · intro op hop
    rcases List.mem_flatMap.mp hop with ⟨c, _, hc⟩
    exact toolCallOpsFor_good obj t sid c op hc
  · exact forall_mem_ite_nil
      (forall_mem_singleton_op ⟨⟨rfl, rfl, rfl, rfl⟩, etype_ne_md "user_message" rfl⟩)
  · exact forall_mem_ite_nil
      (forall_mem_singleton_op ⟨⟨rfl, rfl, rfl, rfl⟩, etype_ne_md "assistant_message" rfl⟩)
  · exact toolResultOps_good obj msgJ t sid

theorem processJsonlOps_good (obj : Json) (sid : Str) (isCron : Bool) :
    ∀ op ∈ processJsonlOps obj sid isCron, OpGood op := by
  simp only [processJsonlOps]
  split
  · exact forall_mem_nil_op
  · split
    · exact cronOps_good obj _
    · split
      · split
        · exact sessionOps_good obj _ _ sid
        · exact forall_mem_nil_op
      · exact forall_mem_nil_op

theorem processPlainOps_good (obj : Json) : ∀ op ∈ processPlainOps obj, OpGood op := by
  simp only [processPlainOps]
  split
  · exact forall_mem_nil_op
  · split
    · exact forall_mem_nil_op
    · refine List.forall_mem_append.mpr ⟨List.forall_mem_append.mpr
        ⟨List.forall_mem_append.mpr ⟨List.forall_mem_append.mpr
          ⟨List.forall_mem_append.mpr ⟨?_, ?_⟩, ?_⟩, ?_⟩, ?_⟩, ?_⟩
      ·
        intro x hx
        split at hx
        · split at hx
          · rcases List.mem_singleton.mp hx with rfl
            exact ⟨⟨rfl, rfl, rfl, rfl⟩, trivial⟩
          · cases hx
        · cases hx
      ·
        intro x hx
        split at hx
        · split at hx
          · rcases List.mem_singleton.mp hx with rfl
            exact ⟨⟨rfl, rfl, rfl, rfl⟩, etype_ne_md "tool_call" rfl⟩
          · cases hx
        · cases hx
      · exact forall_mem_ite_nil
          (forall_mem_singleton_op ⟨⟨rfl, rfl, rfl, rfl⟩, etype_ne_md "run_lifecycle" rfl⟩)
      · exact forall_mem_ite_nil
          (forall_mem_singleton_op ⟨⟨rfl, rfl, rfl, rfl⟩, etype_ne_md "heartbeat" rfl⟩)
      · exact forall_mem_ite_nil
          (forall_mem_singleton_op ⟨⟨rfl, rfl, rfl, rfl⟩, etype_ne_md "failure" rfl⟩)
      · exact forall_mem_ite_nil
          (forall_mem_singleton_op ⟨⟨rfl, rfl, rfl, rfl⟩, etype_ne_md "success" rfl⟩)

theorem processLineOps_good (isCron : Bool) (base : Str) (obj : Json) :
    ∀ op ∈ processLineOps isCron base obj, OpGood op := by
  simp only [processLineOps]
  split
  · exact processJsonlOps_good obj base isCron
  · exact processPlainOps_good obj

theorem allOps_good (files : List LogFile) : ∀ op ∈ allOps files, OpGood op := by
  intro op hop
  rcases List.mem_flatMap.mp hop with ⟨f, _, hf⟩
  simp only [fileOps] at hf
  rcases List.mem_flatMap.mp hf with ⟨o, _, ho⟩
  cases o with
  | none => cases ho
  | some j => exact processLineOps_good _ _ j op ho

/-! ## Write-counter bookkeeping -/

/-- The predicate that identifies the persisted md_write events for file `f`. -/
def isMdWriteFor (f : Str) (e : Event) : Bool :=
  decide (e.etype = "md_write".data) && decide (e.category = Json.jstr f)

/-- Number of md-write signals for file `f` in an op list. -/
def opsMdCount (f : Str) (ops : List Op) : Nat :=
  ops.countP fun op =>
    match op with
    | .mdWrite _ g _ _ _ _ _ _ => g == f
    | .plain _ => false

theorem applyOps_counts_lookup (f : Str) (ops : List Op) (st : ParseState) :
    lookupCount f (applyOps ops st).mdWriteCounts =
      lookupCount f st.mdWriteCounts + opsMdCount f ops := by
  induction ops generalizing st with
  | nil => simp [applyOps, opsMdCount]
  | cons op rest ih =>
    have step : applyOps (op :: rest) st = applyOps rest (op.apply st) := rfl
    rw [step, ih]
    cases op with
    | plain e => simp [Op.apply, opsMdCount, List.countP_cons]
    | mdWrite t g b m lv sub rid sid =>
      simp only [Op.apply]
      rw [lookup_bumpAssoc]
      simp only [opsMdCount, List.countP_cons]
      by_cases hgf : g = f
      · simp [hgf]
        omega
      · have : (g == f) = false := by simp [hgf]
        simp [hgf, this, opsMdCount]

theorem eventsMdCount (f : Str) (ops : List Op) (hgood : ∀ op ∈ ops, OpGood op) :
    (ops.map Op.event).countP (isMdWriteFor f) = opsMdCount f ops := by
  induction ops with
  | nil => rfl
  | cons op rest ih =>
    have hop := hgood op (List.mem_cons_self _ _)
    have hrest : ∀ o ∈ rest, OpGood o := fun o ho => hgood o (List.mem_cons_of_mem _ ho)
    simp only [List.map, opsMdCount, List.countP_cons] at ih ⊢
    rw [ih hrest]
    cases op with
    | plain e =>
      have hne : decide (e.etype = "md_write".data) = false := decide_eq_false hop.2
      simp [Op.event, isMdWriteFor, hne]
    | mdWrite t g b m lv sub rid sid =>
      simp only [Op.event, mdEventOf, isMdWriteFor]
      by_cases hgf : g = f
      · simp [hgf]
      · have h1 : (g == f) = false := by simp [hgf]
        have h2 : decide ((Json.jstr g : Json) = Json.jstr f) = false := by
          simp [hgf]
        simp [h1, h2, hgf]

theorem classifyAll_counts (files : List LogFile) (f : Str) :
    lookupCount f (classifyAll files).mdWriteCounts =
      (classifyAll files).events.countP (isMdWriteFor f) := by
  unfold classifyAll
  rw [applyOps_counts_lookup, applyOps_events]
  have h0 : lookupCount f initState.mdWriteCounts = 0 := lookup_map_const_zero f MD_FILES
  have h1 : initState.events = [] := rfl
  rw [h0, h1, List.nil_append, eventsMdCount f _ (allOps_good files)]
  omega

/-- The four-field dedup identity of an event. -/
def identTuple (e : Event) : Int × Str × Json × Str := (e.time, e.etype, e.category, e.message)

theorem identTuple_eq_dedupKey_eq {a b : Event} (h : identTuple a = identTuple b) :
    dedupKey a = dedupKey b := by
  simp only [identTuple, Prod.mk.injEq] at h
  simp [dedupKey, h.1, h.2.1, h.2.2.1, h.2.2.2]

theorem pipeline_events_eq (files : List LogFile) :
    (runPipeline files).events = sortByTime (dedupEvents (classifyAll files).events) := rfl

theorem pipeline_events_fresh (files : List LogFile) :
    ∀ e ∈ (runPipeline files).events, EventFresh e := by
  intro e he
  have he2 : e ∈ dedupEvents (classifyAll files).events :=
    (sortByTime_perm _).mem_iff.mp (pipeline_events_eq files ▸ he)
  have he3 : e ∈ (classifyAll files).events :=
    (dedupByKey_sublist dedupKey [] _).subset he2
  rw [classifyAll, applyOps_events] at he3
  have h1 : initState.events = [] := rfl
  rw [h1, List.nil_append] at he3
  rcases List.mem_map.mp he3 with ⟨op, hop, rfl⟩
  exact (allOps_good files op hop).1

/-! ## Claim C10 -/

def c10Rec : Json :=
  .jobj [("time", .jnum 1700000000000), ("message", .jstr "Wrote 512 bytes to SOUL.md".data)]

def c10Files : List LogFile := [⟨"logs/app.log".data, [some c10Rec, some c10Rec]⟩]

/-- C10: the per-file write counters `mdWriteCounts[f]` are incremented at
classification time, before deduplication: the counter equals the number
of *classified* md_write events with category `f`; hence it is at least
the number of such events in the persisted (deduplicated) output, and on
an input with duplicate write records it is strictly greater. -/
theorem C10_md_counters_count_pre_dedup :
    (∀ (files : List LogFile) (f : Str),
        lookupCount f (classifyAll files).mdWriteCounts =
          (classifyAll files).events.countP (isMdWriteFor f)) ∧
    (∀ (files : List LogFile) (f : Str),
        (runPipeline files).events.countP (isMdWriteFor f) ≤
          lookupCount f (runPipeline files).summary.mdWriteCounts) ∧
    (∃ (files : List LogFile) (f : Str),
        (runPipeline files).events.countP (isMdWriteFor f) <
          lookupCount f (runPipeline files).summary.mdWriteCounts) := by
  refine ⟨classifyAll_counts, ?_, ?_⟩
  · intro files f
    have h1 : (runPipeline files).summary.mdWriteCounts =
        (classifyAll files).mdWriteCounts := rfl
    have h2 : (runPipeline files).events.countP (isMdWriteFor f) =
        (dedupEvents (classifyAll files).events).countP (isMdWriteFor f) :=
      (sortByTime_perm _).countP_eq _
    rw [h1, h2, classifyAll_counts]
    exact (dedupByKey_sublist dedupKey [] _).countP_le _
  · exact ⟨c10Files, "SOUL.md".data, by decide⟩

/-! ## Claim C1 -/

def c1Rec : Json :=
  .jobj [("time", .jnum 1700000000000), ("message", .jstr "Wrote 512 bytes to SOUL.md".data)]

def c1Files : List LogFile := [⟨"logs/app.log".data, [some c1Rec]⟩]

/-- The event the extractor produces for `c1Rec`. -/
def c1NewEvent : Event :=
  { time := 1700000000000, etype := "md_write".data, category := .jstr "SOUL.md".data,
    message := "Wrote 512 bytes to SOUL.md".data, level := .jstr "info".data,
    subsystem := .jstr [], bytes := some 512 }

/-- A previously persisted copy of the same event carrying enrichment. -/
def c1OldEvent : Event :=
  { c1NewEvent with sentiment := some "delighted".data }

/-- C1 (counterexample): re-running extraction does *not* copy the prior
`sentiment` forward — for an old collection holding `c1OldEvent`
(`sentiment = "delighted"`) and inputs that still produce the identical
four-field key, the freshly persisted event does not carry that
sentiment. -/
theorem C1_counterexample :
    ¬ (∀ e ∈ (runPipeline c1Files).events,
        identTuple e = identTuple c1OldEvent → e.sentiment = c1OldEvent.sentiment) := by
  intro h
  have := h c1NewEvent (by decide) (by decide)
  exact absurd this (by decide)

/-- C1 (amended): extraction writes a collection computed from the log
inputs alone — no prior `events.json` is read and no external call is
made — so every persisted event has the enrichment fields `summary`,
`modSummary`, `sentiment`, `embedding` absent; prior enrichment is
discarded rather than merged. -/
theorem C1_reextraction_ignores_prior_enrichment (files : List LogFile) (e : Event)
    (he : e ∈ (runPipeline files).events) :
    e.summary = none ∧ e.modSummary = none ∧ e.sentiment = none ∧ e.embedding = none :=
  pipeline_events_fresh files e he

theorem C1_witness :
    c1NewEvent ∈ (runPipeline c1Files).events ∧
      (c1NewEvent.summary = none ∧ c1NewEvent.modSummary = none ∧
        c1NewEvent.sentiment = none ∧ c1NewEvent.embedding = none) :=
  ⟨by decide, C1_reextraction_ignores_prior_enrichment c1Files c1NewEvent (by decide)⟩

/-! ## Claim C2 -/

/-- C2 (amended): no two distinct persisted events share the four-field
identity tuple `(time, type, category, message)`, and stable first-wins
holds at the granularity the code actually uses — the `|`-joined key
string: every persisted event is the first classified occurrence of its
identity tuple, and for every classified event the first classified
occurrence of its *key* is persisted.  At tuple granularity the "first
occurrence of each tuple is kept" direction fails (see the
counterexample): a key collision between tuple-distinct events drops a
tuple's first occurrence. -/
theorem C2_dedup_identity_first_wins (files : List LogFile) :
    (runPipeline files).events.Pairwise (fun a b => identTuple a ≠ identTuple b) ∧
    (∀ e ∈ (runPipeline files).events,
      (classifyAll files).events.find? (fun c => decide (identTuple c = identTuple e)) =
        some e) ∧
    (∀ c ∈ (classifyAll files).events,
      ∃ e ∈ (runPipeline files).events,
        (classifyAll files).events.find? (fun x => decide (dedupKey x = dedupKey c)) =
          some e) := by
  refine ⟨?_, ?_, ?_⟩
  · have hkey : (dedupEvents (classifyAll files).events).Pairwise
        (fun a b => dedupKey a ≠ dedupKey b) := dedupByKey_pairwise dedupKey [] _
    have htup : (dedupEvents (classifyAll files).events).Pairwise
        (fun a b => identTuple a ≠ identTuple b) :=
      hkey.imp fun h heq => h (identTuple_eq_dedupKey_eq heq)
    rw [pipeline_events_eq]
    exact (List.Perm.pairwise_iff (fun h a => h a.symm) (sortByTime_perm _).symm).mp htup
  · intro e he
    have he2 : e ∈ dedupEvents (classifyAll files).events :=
      (sortByTime_perm _).mem_iff.mp (pipeline_events_eq files ▸ he)
    have hfirst := (dedupByKey_mem_first dedupKey [] _ e he2).2
    exact find_tup_of_find_key dedupKey identTuple
      (fun a b h => identTuple_eq_dedupKey_eq h) _ e hfirst
  · intro c hc
    obtain ⟨y, hy, hky⟩ :=
      dedupByKey_mem_of_mem dedupKey [] ((classifyAll files).events) c hc (by simp)
    refine ⟨y, ?_, ?_⟩
    · rw [pipeline_events_eq]
      exact (sortByTime_perm _).mem_iff.mpr hy
    · have hfirst := (dedupByKey_mem_first dedupKey [] _ y hy).2
      rw [hky] at hfirst
      exact hfirst

def c2Rec : Json :=
  .jobj [("time", .jnum 1700000000000), ("message", .jstr "Wrote 512 bytes to SOUL.md".data)]

def c2Files : List LogFile := [⟨"logs/app.log".data, [some c2Rec, some c2Rec]⟩]

def c2Event : Event :=
  { time := 1700000000000, etype := "md_write".data, category := .jstr "SOUL.md".data,
    message := "Wrote 512 bytes to SOUL.md".data, level := .jstr "info".data,
    subsystem := .jstr [], bytes := some 512 }

theorem C2_witness :
    c2Event ∈ (runPipeline c2Files).events ∧
      (classifyAll c2Files).events.find?
        (fun c => decide (identTuple c = identTuple c2Event)) = some c2Event ∧
      (∃ e ∈ (runPipeline c2Files).events,
        (classifyAll c2Files).events.find?
          (fun x => decide (dedupKey x = dedupKey c2Event)) = some e) :=
  ⟨by decide, (C2_dedup_identity_first_wins c2Files).2.1 c2Event (by decide),
   (C2_dedup_identity_first_wins c2Files).2.2 c2Event (by decide)⟩

/-- A session record whose tool-call `name` contains `|`: it classifies
to a `tool_call` event with category `"foo|tool start tool=foo x"` and
message `"\"y\""` (the stringified arguments). -/
def c2CollSessionRec : Json :=
  .jobj [("type", .jstr "message".data), ("time", .jnum 1700000000000),
    ("message", .jobj [("content", .jarr [.jobj [("type", .jstr "toolCall".data),
      ("name", .jstr "foo|tool start tool=foo x".data),
      ("arguments", .jstr "y".data)]])])]

/-- A plain log record at the same time: it classifies to a `tool_call`
event with category `"foo"` and message `"tool start tool=foo x|\"y\""` —
a different identity tuple, but the same `|`-joined dedup key. -/
def c2CollPlainRec : Json :=
  .jobj [("time", .jnum 1700000000000),
    ("message", .jstr "tool start tool=foo x|\"y\"".data)]

def c2CollFiles : List LogFile :=
  [⟨"logs/session1.jsonl".data, [some c2CollSessionRec]⟩,
   ⟨"logs/app.log".data, [some c2CollPlainRec]⟩]

/-- C2 (counterexample): first-wins fails at tuple granularity.  The
dedup key is the string `time|type|category|message`, and a session
tool-call name may contain `|`, so the two records above produce
key-equal but tuple-distinct classified events; the plain-log event —
the first (and only) classified occurrence of its tuple — is dropped,
and no persisted event carries its tuple at all. -/
theorem C2_counterexample :
    ¬ (∀ c ∈ (classifyAll c2CollFiles).events,
        ∃ e ∈ (runPipeline c2CollFiles).events, identTuple e = identTuple c) := by
  decide

/-! ## Claim C5 -/

/-- C5: the persisted array is sorted ascending by time (every adjacent
pair is ordered), and ties keep their relative classification order: for
every time value the persisted events with that time are exactly the
deduplicated events with that time, in their pre-sort (classification)
order, the dedup pass itself being an order-preserving sublist of the
classification order. -/
theorem C5_sort_order (files : List LogFile) :
    List.Chain' (fun a b => a.time ≤ b.time) (runPipeline files).events ∧
    (∀ t : Int, (runPipeline files).events.filter (fun e => e.time == t) =
        (dedupEvents (classifyAll files).events).filter (fun e => e.time == t)) ∧
    (dedupEvents (classifyAll files).events).Sublist (classifyAll files).events := by
  refine ⟨?_, ?_, dedupByKey_sublist dedupKey [] _⟩
  · rw [pipeline_events_eq]
    exact (sortByTime_pairwise _).chain'
  · intro t
    rw [pipeline_events_eq]
    exact filter_sortByTime _ t

/-! ## Claim C7 -/

theorem head?_mem_own {l : List Event} {a : Event} (h : l.head? = some a) : a ∈ l := by
  cases l with
  | nil => cases h
  | cons x rest =>
    have : x = a := by simpa [List.head?] using h
    exact this ▸ List.mem_cons_self _ _

theorem getLast?_mem_own {l : List Event} {b : Event} (h : l.getLast? = some b) : b ∈ l := by
  induction l with
  | nil => cases h
  | cons x rest ih =>
    cases rest with
    | nil =>
      have : x = b := by simpa [List.getLast?] using h
      exact this ▸ List.mem_cons_self _ _
    | cons y ys =>
      have h' : (y :: ys).getLast? = some b := by
        rwa [List.getLast?_cons_cons] at h
      exact List.mem_cons_of_mem _ (ih h')

theorem getLast?_isSome_of_ne_nil {l : List Event} (h : l ≠ []) : l.getLast?.isSome := by
  induction l with
  | nil => exact absurd rfl h
  | cons x rest ih =>
    cases rest with
    | nil => simp [List.getLast?]
    | cons y ys =>
      rw [List.getLast?_cons_cons]
      exact ih (by simp)

theorem pairwise_head_min {l : List Event} (hp : l.Pairwise timeLE) {a : Event}
    (ha : l.head? = some a) : ∀ e ∈ l, a.time ≤ e.time := by
  cases l with
  | nil => cases ha
  | cons x rest =>
    have hxa : x = a := by simpa [List.head?] using ha
    subst hxa
    intro e he
    rcases List.mem_cons.mp he with rfl | he
    · exact le_refl _
    · exact (List.pairwise_cons.mp hp).1 e he

theorem pairwise_getLast_max {l : List Event} (hp : l.Pairwise timeLE) {b : Event}
    (hb : l.getLast? = some b) : ∀ e ∈ l, e.time ≤ b.time := by
  induction l with
  | nil => cases hb
  | cons x rest ih =>
    cases rest with
    | nil =>
      have hxb : x = b := by simpa [List.getLast?] using hb
      subst hxb
      intro e he
      rcases List.mem_singleton.mp he with rfl
      exact le_refl _
    | cons y ys =>
      have hb' : (y :: ys).getLast? = some b := by
        rwa [List.getLast?_cons_cons] at hb
      intro e he
      rcases List.mem_cons.mp he with rfl | he
      · have hbmem : b ∈ y :: ys := getLast?_mem_own hb'
        exact (List.pairwise_cons.mp hp).1 b hbmem
      · exact ih (List.pairwise_cons.mp hp).2 hb' e he

/-- C7: `summary.totalEvents` is the number of persisted events,
`summary.eventTypes` is the duplicate-free set of types occurring among
them, and `summary.timeRange` is `null` exactly for an empty collection
and otherwise spans from the minimum to the maximum event time. -/
theorem C7_summary_consistency (files : List LogFile) :
    (runPipeline files).summary.totalEvents = (runPipeline files).events.length ∧
    (runPipeline files).summary.eventTypes.Nodup ∧
    (∀ ty : Str, ty ∈ (runPipeline files).summary.eventTypes ↔
        ∃ e ∈ (runPipeline files).events, e.etype = ty) ∧
    ((runPipeline files).events = [] → (runPipeline files).summary.timeRange = none) ∧
    (∀ a b : Int, (runPipeline files).summary.timeRange = some (a, b) →
        (∃ e ∈ (runPipeline files).events, e.time = a) ∧
        (∃ e ∈ (runPipeline files).events, e.time = b) ∧
        (∀ e ∈ (runPipeline files).events, a ≤ e.time ∧ e.time ≤ b)) ∧
    ((runPipeline files).events ≠ [] → ((runPipeline files).summary.timeRange).isSome) := by
  have hTypes : (runPipeline files).summary.eventTypes =
      dedupByKey id [] ((runPipeline files).events.map (·.etype)) := rfl
  have hRange : (runPipeline files).summary.timeRange =
      (match (runPipeline files).events.head?, (runPipeline files).events.getLast? with
       | some a, some b => some (a.time, b.time)
       | _, _ => none) := rfl
  have hPairwise : (runPipeline files).events.Pairwise timeLE := by
    rw [pipeline_events_eq]
    exact sortByTime_pairwise _
  refine ⟨rfl, ?_, ?_, ?_, ?_, ?_⟩
  · rw [hTypes]
    exact dedupByKey_pairwise id [] _
  · intro ty
    rw [hTypes]
    constructor
    · intro h
      have : ty ∈ (runPipeline files).events.map (·.etype) :=
        (dedupByKey_sublist id [] _).subset h
      rcases List.mem_map.mp this with ⟨e, he, hety⟩
      exact ⟨e, he, hety⟩
    · rintro ⟨e, he, rfl⟩
      have hm : e.etype ∈ (runPipeline files).events.map (·.etype) :=
        List.mem_map.mpr ⟨e, he, rfl⟩
      rcases dedupByKey_mem_of_mem id [] _ e.etype hm (by simp) with ⟨y, hy, hid⟩
      exact (show y = e.etype from hid) ▸ hy
  · intro h
    rw [hRange, h]
    rfl
  · intro a b hab
    rw [hRange] at hab
    rcases hh : (runPipeline files).events.head? with _ | ea
    · rw [hh] at hab
      rcases hl : (runPipeline files).events.getLast? with _ | eb <;> rw [hl] at hab <;> cases hab
    · rcases hl : (runPipeline files).events.getLast? with _ | eb
      · rw [hh, hl] at hab
        cases hab
      · rw [hh, hl] at hab
        have hea : ea.time = a := congrArg Prod.fst (Option.some.inj hab)
        have heb : eb.time = b := congrArg Prod.snd (Option.some.inj hab)
        refine ⟨⟨ea, head?_mem_own hh, hea⟩, ⟨eb, getLast?_mem_own hl, heb⟩, ?_⟩
        intro e he
        exact ⟨hea ▸ pairwise_head_min hPairwise hh e he,
               heb ▸ pairwise_getLast_max hPairwise hl e he⟩
  · intro hne
    rw [hRange]
    rcases hh : (runPipeline files).events.head? with _ | ea
    · cases hevs : (runPipeline files).events with
      | nil => exact absurd hevs hne
      | cons x rest => rw [hevs] at hh; cases hh
    · have hsome := getLast?_isSome_of_ne_nil hne
      rcases hl : (runPipeline files).events.getLast? with _ | eb
      · rw [hl] at hsome
        cases hsome
      · simp

def c7Rec : Json :=
  .jobj [("time", .jnum 1700000000000), ("message", .jstr "Wrote 512 bytes to SOUL.md".data)]

def c7Files : List LogFile := [⟨"logs/app.log".data, [some c7Rec]⟩]

theorem C7_witness :
    ((runPipeline ([] : List LogFile)).events = [] ∧
      (runPipeline ([] : List LogFile)).summary.timeRange = none) ∧
    ((runPipeline c7Files).summary.timeRange = some (1700000000000, 1700000000000) ∧
      (runPipeline c7Files).events ≠ [] ∧
      (∃ e ∈ (runPipeline c7Files).events, e.time = 1700000000000) ∧
      ((runPipeline c7Files).summary.timeRange).isSome) :=
  ⟨⟨rfl, (C7_summary_consistency []).2.2.2.1 rfl⟩,
   ⟨by decide, by decide,
    ((C7_summary_consistency c7Files).2.2.2.2.1 1700000000000 1700000000000 (by decide)).1,
    (C7_summary_consistency c7Files).2.2.2.2.2 (by decide)⟩⟩

/-! ## Claim C6 -/

def c6LongEvent : Event :=
  { time := 0, etype := "note".data, category := .jstr [], message := List.replicate 401 'a',
    level := .jstr [], subsystem := .jstr [] }

set_option maxRecDepth 4000 in
/-- C6 (counterexample): the slim message can exceed the cap — truncation
appends an ellipsis after slicing to the cap, so a 401-character message
of a non-md_write event slims to 401 characters, above the 400 cap. -/
theorem C6_counterexample :
    ¬ ((slimEvent c6LongEvent).message.length ≤ slimCap c6LongEvent.etype) := by decide

/-- C6 (amended): the slim event has `embedding` and `embeddingText`
absent and every other field except `message` unchanged; the message is
unchanged when within the type-dependent cap and otherwise is the
cap-length prefix plus one ellipsis character (length cap + 1). -/
theorem C6_slim_fidelity (e : Event) :
    (slimEvent e).embedding = none ∧
    (slimEvent e).embeddingText = none ∧
    (slimEvent e).message.length ≤ slimCap e.etype + 1 ∧
    (e.message.length ≤ slimCap e.etype → (slimEvent e).message = e.message) ∧
    (slimEvent e).time = e.time ∧ (slimEvent e).etype = e.etype ∧
    (slimEvent e).category = e.category ∧ (slimEvent e).level = e.level ∧
    (slimEvent e).subsystem = e.subsystem ∧ (slimEvent e).runId = e.runId ∧
    (slimEvent e).sessionId = e.sessionId ∧ (slimEvent e).bytes = e.bytes ∧
    (slimEvent e).role = e.role ∧ (slimEvent e).summary = e.summary ∧
    (slimEvent e).modSummary = e.modSummary ∧ (slimEvent e).sentiment = e.sentiment := by
  refine ⟨rfl, rfl, ?_, ?_, rfl, rfl, rfl, rfl, rfl, rfl, rfl, rfl, rfl, rfl, rfl, rfl⟩
  · simp only [slimEvent]
    split
    · rename_i hgt
      simp only [List.length_append, List.length_take, List.length_singleton]
      omega
    · rename_i hle
      omega
  · intro h
    simp only [slimEvent]
    rw [if_neg (by omega)]

def c6ShortEvent : Event :=
  { time := 0, etype := "note".data, category := .jstr [], message := "hi".data,
    level := .jstr [], subsystem := .jstr [] }

theorem C6_witness :
    c6ShortEvent.message.length ≤ slimCap c6ShortEvent.etype ∧
      (slimEvent c6ShortEvent).message = c6ShortEvent.message :=
  ⟨by decide, (C6_slim_fidelity c6ShortEvent).2.2.2.1 (by decide)⟩

/-! ## Claim C4 -/

theorem dedup_pair (a b : Event) (h : dedupKey b ≠ dedupKey a) :
    dedupEvents [a, b] = [a, b] := by
  simp only [dedupEvents, dedupByKey, List.not_mem_nil, if_false]
  rw [if_neg (fun hm => h (List.mem_singleton.mp hm))]

theorem sort_pair_not_lt (a b : Event) (h : ¬ b.time < a.time) :
    sortByTime [a, b] = [a, b] := by
  simp only [sortByTime, insertByTime]
  rw [if_neg h]

def c4BareRec : Json :=
  .jobj [("type", .jstr "toolCall".data), ("name", .jstr "write".data),
    ("arguments", .jobj [("path", .jstr "SOUL.md".data), ("content", .jstr "hello".data)]),
    ("time", .jnum 1700000000000)]

def c4BareFiles : List LogFile := [⟨"logs/session1.jsonl".data, [some c4BareRec]⟩]

/-- C4 (counterexample): a top-level record `{type:"toolCall", name:"write",
arguments:{path:"SOUL.md", content:"hello"}, time:T}` is *not* dispatched
to the session handler (dispatch requires `type:"message"` or
`type:"session"`), and in the plain-log branch it has no extractable
message, so the run produces no md_write event at all and
`mdWriteCounts["SOUL.md"]` stays 0 — the claimed scenario fails. -/
theorem C4_counterexample :
    ¬ ((∃ e ∈ (runPipeline c4BareFiles).events,
          e.time = 1700000000000 ∧ e.etype = "md_write".data ∧
          e.category = Json.jstr "SOUL.md".data ∧ e.bytes = some 5 ∧
          e.message = "hello".data) ∧
        lookupCount "SOUL.md".data (runPipeline c4BareFiles).summary.mdWriteCounts = 1) := by
  decide

def c4WrappedRec (T : Int) : Json :=
  .jobj [("type", .jstr "message".data), ("time", .jnum T),
    ("message", .jobj [("content", .jarr [.jobj [("type", .jstr "toolCall".data),
      ("name", .jstr "write".data),
      ("arguments", .jobj [("path", .jstr "SOUL.md".data),
        ("content", .jstr "hello".data)])]])])]

def c4Files (T : Int) : List LogFile :=
  [⟨"logs/session1.jsonl".data, [some (c4WrappedRec T)]⟩]

/-- The tool_call signal the wrapped record produces. -/
def c4ToolOp (T : Int) : Op :=
  .plain
    { time := T, etype := "tool_call".data, category := .jstr "write".data,
      message := "\x7b\"path\":\"SOUL.md\",\"content\":\"hello\"\x7d".data,
      level := .jstr "info".data, subsystem := .jstr "session".data, runId := none,
      sessionId := some (.jstr "session1".data) }

/-- The md_write signal the wrapped record produces. -/
def c4MdOp (T : Int) : Op :=
  .mdWrite T "SOUL.md".data (some 5) "hello".data (.jstr "info".data)
    (.jstr "session".data) none (some (.jstr "session1".data))

/-- C4 (amended): wrapping the tool-call block in a session record
`{type:"message", time:T, message:{content:[{type:"toolCall", …}]}}`
yields the claimed outcome: the persisted array consists of the
tool_call event and exactly one md_write event with time `T`, category
`"SOUL.md"`, `bytes = 5` and message `"hello"`, and
`mdWriteCounts["SOUL.md"] = 1`. -/
theorem C4_amended_wrapped_toolcall (T : Int) (hT : T ≠ 0) :
    (runPipeline (c4Files T)).events = [(c4ToolOp T).event, (c4MdOp T).event] ∧
    (c4MdOp T).event =
      { time := T, etype := "md_write".data, category := .jstr "SOUL.md".data,
        message := "hello".data, level := .jstr "info".data,
        subsystem := .jstr "session".data, runId := none,
        sessionId := some (.jstr "session1".data), bytes := some 5 } ∧
    (c4ToolOp T).event.etype ≠ "md_write".data ∧
    lookupCount "SOUL.md".data (runPipeline (c4Files T)).summary.mdWriteCounts = 1 := by
  have h1 : tsUsable (getTimestamp (c4WrappedRec T)) = some T := by
    show (if T = 0 then none else some T) = some T
    rw [if_neg hT]
  have hops : processJsonlOps (c4WrappedRec T) "session1".data false =
      [c4ToolOp T, c4MdOp T] := by
    unfold processJsonlOps
    rw [h1]
    rfl
  have hall : allOps (c4Files T) = [c4ToolOp T, c4MdOp T] := by
    have h2 : allOps (c4Files T) =
        (processJsonlOps (c4WrappedRec T) "session1".data false ++ []) ++ [] := rfl
    rw [h2, hops]
    rfl
  have hev : (classifyAll (c4Files T)).events = [(c4ToolOp T).event, (c4MdOp T).event] := by
    rw [classifyAll, hall, applyOps_events]
    rfl
  have hkeys : dedupKey (c4MdOp T).event ≠ dedupKey (c4ToolOp T).event := by
    intro h
    have h2 : "md_write|SOUL.md|hello".data =
        "tool_call|write|\x7b\"path\":\"SOUL.md\",\"content\":\"hello\"\x7d".data :=
      congrArg Prod.snd h
    exact absurd h2 (by decide)
  refine ⟨?_, rfl, ?_, ?_⟩
  · rw [pipeline_events_eq, hev, dedup_pair _ _ hkeys,
        sort_pair_not_lt ((c4ToolOp T).event) ((c4MdOp T).event) (by exact lt_irrefl T)]
  · exact etype_ne_md "tool_call" rfl
  · have hc : (runPipeline (c4Files T)).summary.mdWriteCounts =
        (applyOps [c4ToolOp T, c4MdOp T] initState).mdWriteCounts := by
      show (classifyAll (c4Files T)).mdWriteCounts = _
      rw [classifyAll, hall]
    rw [hc]
    rfl

theorem C4_witness :
    (1700000000000 : Int) ≠ 0 ∧
      ((runPipeline (c4Files 1700000000000)).events =
          [(c4ToolOp 1700000000000).event, (c4MdOp 1700000000000).event] ∧
        (c4MdOp 1700000000000).event =
          { time := 1700000000000, etype := "md_write".data,
            category := .jstr "SOUL.md".data, message := "hello".data,
            level := .jstr "info".data, subsystem := .jstr "session".data, runId := none,
            sessionId := some (.jstr "session1".data), bytes := some 5 } ∧
        (c4ToolOp 1700000000000).event.etype ≠ "md_write".data ∧
        lookupCount "SOUL.md".data
          (runPipeline (c4Files 1700000000000)).summary.mdWriteCounts = 1) :=
  ⟨by decide, C4_amended_wrapped_toolcall 1700000000000 (by decide)⟩

/-! ## Claim C3 -/

def c3WriteRec : Json :=
  .jobj [("time", .jnum 1700000000000), ("message", .jstr "Wrote 512 bytes to SOUL.md".data)]

def c3WriteEvent : Event :=
  { time := 1700000000000, etype := "md_write".data, category := .jstr "SOUL.md".data,
    message := "Wrote 512 bytes to SOUL.md".data, level := .jstr "info".data,
    subsystem := .jstr [], bytes := some 512 }

/-- C3: a plain record whose message mentions a tracked file but contains
no write verb and matches no byte pattern produces no md_write event;
and the record with message "Wrote 512 bytes to SOUL.md" produces exactly
the single md_write event with `bytes = 512` and category `"SOUL.md"`. -/
theorem C3_write_read_discrimination :
    (∀ (obj : Json) (ts : Int),
        tsUsable (getTimestamp obj) = some ts →
        (extractMdFile (getMessage obj)).isSome →
        writeVerbTest (lowerStr (getMessage obj)) = false →
        extractBytes (getMessage obj) = none →
        ∀ op ∈ processPlainOps obj, (Op.event op).etype ≠ "md_write".data) ∧
    (processPlainOps c3WriteRec).map Op.event = [c3WriteEvent] := by
  constructor
  · intro obj ts hts hmd hverb hbytes
    simp only [processPlainOps]
    split
    · exact fun op hop => absurd hop (List.not_mem_nil op)
    · split
      · exact fun op hop => absurd hop (List.not_mem_nil op)
      · refine List.forall_mem_append.mpr ⟨List.forall_mem_append.mpr
          ⟨List.forall_mem_append.mpr ⟨List.forall_mem_append.mpr
            ⟨List.forall_mem_append.mpr ⟨?_, ?_⟩, ?_⟩, ?_⟩, ?_⟩, ?_⟩
        · intro x hx
          split at hx
          · split at hx
            · rename_i hcond
              rw [hverb, hbytes] at hcond
              simp at hcond
            · cases hx
          · cases hx
        · intro x hx
          split at hx
          · split at hx
            · rcases List.mem_singleton.mp hx with rfl
              exact etype_ne_md "tool_call" rfl
            · cases hx
          · cases hx
        · exact forall_mem_ite_nil (forall_mem_singleton_op (etype_ne_md "run_lifecycle" rfl))
        · exact forall_mem_ite_nil (forall_mem_singleton_op (etype_ne_md "heartbeat" rfl))
        · exact forall_mem_ite_nil (forall_mem_singleton_op (etype_ne_md "failure" rfl))
        · exact forall_mem_ite_nil (forall_mem_singleton_op (etype_ne_md "success" rfl))
  · decide

def c3ReadRec : Json :=
  .jobj [("time", .jnum 1700000000000), ("message", .jstr "From SOUL.md: hello".data)]

theorem C3_witness :
    tsUsable (getTimestamp c3ReadRec) = some 1700000000000 ∧
      (extractMdFile (getMessage c3ReadRec)).isSome = true ∧
      writeVerbTest (lowerStr (getMessage c3ReadRec)) = false ∧
      extractBytes (getMessage c3ReadRec) = none ∧
      ∀ op ∈ processPlainOps c3ReadRec, (Op.event op).etype ≠ "md_write".data :=
  ⟨by decide, by decide, by decide, by decide,
   C3_write_read_discrimination.1 c3ReadRec 1700000000000 (by decide) (by decide)
     (by decide) (by decide)⟩

/-! ## Claim C8: extractor totality

Every extractor of the embedding is a total Lean function, so
"terminates without throwing" holds by construction; the lemmas below
verify the absence value each extractor returns when its input carries
none of the features it looks for. -/

theorem firstNonNull_eq_none {l : List (Option Json)}
    (h : ∀ o ∈ l, isNullish o = true) : firstNonNull l = none := by
  induction l with
  | nil => rfl
  | cons o rest ih =>
    have ho := h o (List.mem_cons_self o rest)
    have hrest := ih fun x hx => h x (List.mem_cons_of_mem _ hx)
    cases o with
    | none => simpa [firstNonNull] using hrest
    | some j =>
      cases j with
      | jnull => simpa [firstNonNull] using hrest
      | jbool b => simp [isNullish] at ho
      | jnum n => simp [isNullish] at ho
      | jstr s => simp [isNullish] at ho
      | jarr a => simp [isNullish] at ho
      | jobj f => simp [isNullish] at ho

theorem getTimestamp_absent {obj : Json}
    (h : ∀ k ∈ (["time", "date", "timestamp", "ts", "runAtMs"] : List String),
        isNullish (jget k obj) = true) :
    getTimestamp obj = none := by
  have h' : firstNonNull
      [jget "time" obj, jget "date" obj, jget "timestamp" obj,
       jget "ts" obj, jget "runAtMs" obj] = none := by
    refine firstNonNull_eq_none ?_
    intro o ho
    simp only [List.mem_cons, List.not_mem_nil, or_false] at ho
    rcases ho with rfl | rfl | rfl | rfl | rfl
    · exact h "time" (by simp)
    · exact h "date" (by simp)
    · exact h "timestamp" (by simp)
    · exact h "ts" (by simp)
    · exact h "runAtMs" (by simp)
  unfold getTimestamp
  rw [h']

theorem getMessage_absent {fs : List (String × Json)}
    (hm : jget "message" (Json.jobj fs) = none) (h0 : jget "0" (Json.jobj fs) = none)
    (ha : jget "arguments" (Json.jobj fs) = none)
    (hs : jget "summary" (Json.jobj fs) = none) :
    getMessage (Json.jobj fs) = [] := by
  simp [getMessage, getMessage.getMessageContent, getMessage.getMessageSummary,
    hm, h0, ha, hs]

theorem getLevel_absent {obj : Json} (h1 : isNullish (jget "level" obj) = true)
    (h2 : isNullish (jget "logLevel" obj) = true) :
    getLevel obj = Json.jstr "info".data := by
  have h' : firstNonNull [jget "level" obj, jget "logLevel" obj] = none := by
    refine firstNonNull_eq_none ?_
    intro o ho
    simp only [List.mem_cons, List.not_mem_nil, or_false] at ho
    rcases ho with rfl | rfl
    · exact h1
    · exact h2
  unfold getLevel
  rw [h']
  rfl

theorem getSubsystem_absent {obj : Json} (h1 : isNullish (jget "subsystem" obj) = true)
    (h2 : isNullish (jget "name" obj) = true) :
    getSubsystem obj = Json.jstr [] := by
  have h' : firstNonNull [jget "subsystem" obj, jget "name" obj] = none := by
    refine firstNonNull_eq_none ?_
    intro o ho
    simp only [List.mem_cons, List.not_mem_nil, or_false] at ho
    rcases ho with rfl | rfl
    · exact h1
    · exact h2
  unfold getSubsystem
  rw [h']
  rfl

theorem countWhile_eq_zero {p : Char → Bool} {s : Str} (h : ∀ c ∈ s, p c = false) :
    countWhile p s = 0 := by
  cases s with
  | nil => rfl
  | cons c t =>
    have hc := h c (List.mem_cons_self c t)
    simp [countWhile, List.takeWhile_cons, hc]

theorem scanFirst_eq_none {α : Type} {f : Option Char → Str → Option α} {l : Str}
    (h : ∀ p s, s <:+ l → f p s = none) :
    ∀ prev, scanFirst f prev l = none := by
  induction l with
  | nil => exact fun prev => h prev [] List.nil_suffix
  | cons c t ih =>
    intro prev
    have h1 := h prev (c :: t) (List.suffix_refl _)
    have h2 := ih fun p s hs => h p s (hs.trans (List.suffix_cons c t))
    simp [scanFirst, h1, h2]

theorem byteAlt1_eq_none {s : Str} (h : ∀ c ∈ s, isDigitC c = false) :
    byteAlt1 s = none := by
  simp [byteAlt1, countWhile_eq_zero h]

theorem byteAlt2_eq_none {prev : Option Char} {s : Str}
    (h : ∀ c ∈ s, isDigitC c = false) : byteAlt2 prev s = none := by
  simp [byteAlt2, countWhile_eq_zero h]

theorem byteAlt3_eq_none {s : Str} (h : ∀ c ∈ s, isDigitC c = false) :
    byteAlt3 s = none := by
  have h2 : countWhile isDigitC (s.drop (7 + countWhile isWsC (s.drop 7))) = 0 :=
    countWhile_eq_zero fun c hc => h c (List.mem_of_mem_drop hc)
  simp [byteAlt3, h2]

theorem byteAlt4_eq_none {s : Str} (h : ∀ c ∈ s, isDigitC c = false) :
    byteAlt4 s = none := by
  simp [byteAlt4, countWhile_eq_zero h]

theorem byteAlt5_eq_none {s : Str} (h : ∀ c ∈ s, isDigitC c = false) :
    byteAlt5 s = none := by
  have h2 : countWhile isDigitC (s.drop
      (12 + countWhile (fun c => c = '"' || isWsC c || c = ':') (s.drop 12))) = 0 :=
    countWhile_eq_zero fun c hc => h c (List.mem_of_mem_drop hc)
  simp [byteAlt5, h2]

theorem sizeAlt_eq_none {s : Str} (h : ∀ c ∈ s, isDigitC c = false) :
    sizeAlt s = none := by
  by_cases hp : (['"', 's', 'i', 'z', 'e', '"'] : Str).isPrefixOf s
  · cases hdrop : (s.drop 6).drop (countWhile isWsC (s.drop 6)) with
    | nil => simp [sizeAlt, hp, hdrop]
    | cons c0 rest =>
      simp only [sizeAlt, hp, hdrop, if_true]
      split
      · rename_i rest2 heq
        have hc0 : c0 = ':' ∧ rest = rest2 := by
          have := heq
          injection this with ih1 ih2
          exact ⟨ih1, ih2⟩
        obtain ⟨hcc, hrr⟩ := hc0
        subst hrr
        have hrest : ∀ c ∈ rest, isDigitC c = false := by
          intro c hc
          have hmem : c ∈ (s.drop 6).drop (countWhile isWsC (s.drop 6)) := by
            rw [hdrop]; exact List.mem_cons_of_mem _ hc
          exact h c (List.mem_of_mem_drop (List.mem_of_mem_drop hmem))
        have h2 : countWhile isDigitC (rest.drop (countWhile isWsC rest)) = 0 :=
          countWhile_eq_zero fun c hc => hrest c (List.mem_of_mem_drop hc)
        simp [h2]
      · rfl
  · simp [sizeAlt, hp]

theorem extractBytes_eq_none {s : Str} (h : ∀ c ∈ s, isDigitC c = false) :
    extractBytes s = none := by
  have h1 : scanFirst (fun prev l =>
      byteAlt1 l <|> byteAlt2 prev l <|> byteAlt3 l <|> byteAlt4 l <|> byteAlt5 l)
      none s = none := by
    refine scanFirst_eq_none (fun p t ht => ?_) none
    have h' : ∀ c ∈ t, isDigitC c = false := fun c hc => h c (ht.subset hc)
    rw [byteAlt1_eq_none h', byteAlt2_eq_none h', byteAlt3_eq_none h',
      byteAlt4_eq_none h', byteAlt5_eq_none h']
    rfl
  have h2 : scanPos sizeAlt s = none := by
    show scanFirst (fun _ t => sizeAlt t) none s = none
    exact scanFirst_eq_none (fun p t ht => sizeAlt_eq_none
      (fun c hc => h c (ht.subset hc))) none
  unfold extractBytes
  rw [h1]
  exact h2

theorem containsSub_of_suffix_prefix {n s hay : Str} (hs : s <:+ hay)
    (hp : n.isPrefixOf s = true) : containsSub n hay = true := by
  induction hay with
  | nil =>
    have hnil : s = [] := List.suffix_nil.mp hs
    subst hnil
    cases n with
    | nil => rfl
    | cons a t => simp [List.isPrefixOf] at hp
  | cons c tl ih =>
    have heq : containsSub n (c :: tl) = (n.isPrefixOf (c :: tl) || containsSub n tl) := rfl
    rcases List.suffix_cons_iff.mp hs with h1 | h1
    · subst h1
      rw [heq, hp]
      rfl
    · rw [heq, ih h1]
      simp

theorem extractToolName_eq_none {s : Str} (h : containsSubCI "tool".data s = false) :
    extractToolName s = none := by
  have key0 : ∀ t, t <:+ s → isPrefixOfCI "tool".data t = false := by
    intro t ht
    cases hC : isPrefixOfCI "tool".data t with
    | false => rfl
    | true =>
      exfalso
      have hmap : lowerStr t <:+ lowerStr s := ht.map Char.toLower
      have hsub : containsSub (lowerStr "tool".data) (lowerStr s) = true :=
        containsSub_of_suffix_prefix hmap hC
      unfold containsSubCI at h
      rw [h] at hsub
      exact Bool.noConfusion hsub
  have hA1 : ∀ t, t <:+ s → toolAlt1 t = none := by
    intro t ht
    have hf : isPrefixOfCI "tool=".data t = false := by
      cases hC : isPrefixOfCI "tool=".data t with
      | false => rfl
      | true =>
        exfalso
        have h4 : isPrefixOfCI "tool".data t = true := by
          unfold isPrefixOfCI at hC ⊢
          exact List.isPrefixOf_iff_prefix.mpr
            ((by decide : lowerStr "tool".data <+: lowerStr "tool=".data).trans
              (List.isPrefixOf_iff_prefix.mp hC))
        rw [key0 t ht] at h4
        exact Bool.noConfusion h4
    simp [toolAlt1, hf]
  have hA2 : ∀ t, t <:+ s → toolAlt2 t = none := fun t ht => by
    simp [toolAlt2, key0 t ht]
  unfold extractToolName
  have h1 : scanPos toolAlt1 s = none := by
    show scanFirst (fun _ t => toolAlt1 t) none s = none
    exact scanFirst_eq_none (fun p t ht => hA1 t ht) none
  rw [h1]
  show scanFirst (fun _ t => toolAlt2 t) none s = none
  exact scanFirst_eq_none (fun p t ht => hA2 t ht) none

theorem extractIdWith_eq_none {key s : Str} (h : containsSub key s = false) :
    extractIdWith key s = none := by
  have key0 : ∀ t, t <:+ s → key.isPrefixOf t = false := by
    intro t ht
    cases hC : key.isPrefixOf t with
    | false => rfl
    | true =>
      exfalso
      have hsub := containsSub_of_suffix_prefix ht hC
      rw [h] at hsub
      exact Bool.noConfusion hsub
  have hA1 : ∀ t, t <:+ s → idAlt1 key t = none := by
    intro t ht
    have hf : (key ++ ['=']).isPrefixOf t = false := by
      cases hC : (key ++ ['=']).isPrefixOf t with
      | false => rfl
      | true =>
        exfalso
        have h4 : key.isPrefixOf t = true :=
          List.isPrefixOf_iff_prefix.mpr
            ((List.prefix_append key ['=']).trans (List.isPrefixOf_iff_prefix.mp hC))
        rw [key0 t ht] at h4
        exact Bool.noConfusion h4
    simp [idAlt1, hf]
  have hA2 : ∀ t, t <:+ s → idAlt2 key t = none := fun t ht => by
    simp [idAlt2, key0 t ht]
  unfold extractIdWith
  have h1 : scanPos (idAlt1 key) s = none := by
    show scanFirst (fun _ t => idAlt1 key t) none s = none
    exact scanFirst_eq_none (fun p t ht => hA1 t ht) none
  rw [h1]
  show scanFirst (fun _ t => idAlt2 key t) none s = none
  exact scanFirst_eq_none (fun p t ht => hA2 t ht) none

/-- C8: extractor totality and absence signalling.  Every extractor is a
total function of its input, so termination without exceptions holds by
construction of the embedding; in addition, when the input carries none of
the features an extractor looks for, it returns its absence value — `none`
for the timestamp, byte count, tool name, run id and session id, the empty
string for the message, `"info"` for the level and `""` for the
subsystem — rather than failing the record. -/
theorem C8_extractor_totality (fs : List (String × Json)) (text : Str) :
    ((∀ k ∈ (["time", "date", "timestamp", "ts", "runAtMs"] : List String),
        isNullish (jget k (Json.jobj fs)) = true) →
      getTimestamp (Json.jobj fs) = none) ∧
    (jget "message" (Json.jobj fs) = none → jget "0" (Json.jobj fs) = none →
      jget "arguments" (Json.jobj fs) = none → jget "summary" (Json.jobj fs) = none →
      getMessage (Json.jobj fs) = []) ∧
    (isNullish (jget "level" (Json.jobj fs)) = true →
      isNullish (jget "logLevel" (Json.jobj fs)) = true →
      getLevel (Json.jobj fs) = Json.jstr "info".data) ∧
    (isNullish (jget "subsystem" (Json.jobj fs)) = true →
      isNullish (jget "name" (Json.jobj fs)) = true →
      getSubsystem (Json.jobj fs) = Json.jstr []) ∧
    ((∀ c ∈ text, isDigitC c = false) → extractBytes text = none) ∧
    (containsSubCI "tool".data text = false → extractToolName text = none) ∧
    (containsSub "runId".data text = false → extractRunId text = none) ∧
    (containsSub "sessionId".data text = false → extractSessionId text = none) :=
  ⟨fun h => getTimestamp_absent h,
   fun hm h0 ha hs => getMessage_absent hm h0 ha hs,
   fun h1 h2 => getLevel_absent h1 h2,
   fun h1 h2 => getSubsystem_absent h1 h2,
   fun h => extractBytes_eq_none h,
   fun h => extractToolName_eq_none h,
   fun h => extractIdWith_eq_none h,
   fun h => extractIdWith_eq_none h⟩

theorem C8_witness :
    getTimestamp (Json.jobj [("foo", Json.jnum 1)]) = none ∧
    getMessage (Json.jobj [("foo", Json.jnum 1)]) = [] ∧
    getLevel (Json.jobj [("foo", Json.jnum 1)]) = Json.jstr "info".data ∧
    getSubsystem (Json.jobj [("foo", Json.jnum 1)]) = Json.jstr [] ∧
    extractBytes "hello world".data = none ∧
    extractToolName "hello world".data = none ∧
    extractRunId "hello world".data = none ∧
    extractSessionId "hello world".data = none := by
  obtain ⟨h1, h2, h3, h4, h5, h6, h7, h8⟩ :=
    C8_extractor_totality [("foo", Json.jnum 1)] "hello world".data
  exact ⟨h1 (by decide), h2 (by decide) (by decide) (by decide) (by decide),
    h3 (by decide) (by decide), h4 (by decide) (by decide),
    h5 (by decide), h6 (by decide), h7 (by decide), h8 (by decide)⟩

/-! ## Claim C9: export redaction

The development below proves, for the two GitHub token shapes
(`ghp_[A-Za-z0-9\\|_"$]+` and `github_pat_[A-Za-z0-9_]+`), that
`redactSecrets` (a) emits the literal `[REDACTED]` marker whenever its
input contains an occurrence of the shape, and (b) leaves no occurrence
of either shape in its output; and that `redactObject` rewrites exactly
the string values of a JSON tree by `redactSecrets`. -/

theorem tokOcc_iff (pat : Str) (cls : Char → Bool) (l : Str) :
    tokOcc pat cls l ↔ ∃ t, t <:+ l ∧ tokPrefix pat cls t := by
  constructor
  · rintro ⟨a, d, b, rfl, hd⟩
    exact ⟨pat ++ d :: b, ⟨a, by simp⟩, d, b, rfl, hd⟩
  · rintro ⟨t, ⟨a, ha⟩, d, b, rfl, hd⟩
    exact ⟨a, d, b, by rw [← ha]; simp, hd⟩

theorem noTok_nil (pat : Str) (cls : Char → Bool) : noTok pat cls [] := by
  intro t ht htok
  have ht' : t = [] := List.suffix_nil.mp ht
  subst ht'
  obtain ⟨d, b, habs, _⟩ := htok
  exact absurd habs (by simp)

theorem noTok_suffix {pat : Str} {cls : Char → Bool} {l l' : Str}
    (hs : l' <:+ l) (h : noTok pat cls l) : noTok pat cls l' :=
  fun t ht => h t (ht.trans hs)

theorem suffix_append_cases {X Y t : Str} (h : t <:+ X ++ Y) :
    t <:+ Y ∨ ∃ c s, (c :: s) <:+ X ∧ t = (c :: s) ++ Y := by
  induction X with
  | nil => exact Or.inl (by simpa using h)
  | cons x X' ih =>
    rw [List.cons_append] at h
    rcases List.suffix_cons_iff.mp h with h1 | h1
    · right
      exact ⟨x, X', List.suffix_refl _, by rw [h1, List.cons_append]⟩
    · rcases ih h1 with h2 | ⟨c, s, hcs, ht⟩
      · exact Or.inl h2
      · exact Or.inr ⟨c, s, hcs.trans (List.suffix_cons x X'), ht⟩

theorem redactScan_cons_elim {m : Option Char → Str → Option Nat}
    {p : Option Char} {c : Char} {out : Str} {l : Str}
    (h : redactScan m p l = c :: out) (hc : c ≠ '[') :
    ∃ l', l = c :: l' ∧ out = redactScan m (some c) l' := by
  cases l with
  | nil => simp [redactScan] at h
  | cons c0 rest =>
    simp only [redactScan] at h
    split at h
    · split at h
      · exfalso
        rw [show (REDACTED : Str) = '[' :: "REDACTED]".data from rfl,
          List.cons_append] at h
        injection h with h1 h2
        exact hc h1.symm
      · injection h with h1 h2
        subst h1
        exact ⟨rest, rfl, h2.symm⟩
    · injection h with h1 h2
      subst h1
      exact ⟨rest, rfl, h2.symm⟩

theorem redactScan_chain {m : Option Char → Str → Option Nat} :
    ∀ (q : Str), (∀ c ∈ q, c ≠ '[') →
      ∀ (p : Option Char) (l t : Str), redactScan m p l = q ++ t →
      ∃ l' pv, l = q ++ l' ∧ t = redactScan m pv l' := by
  intro q
  induction q with
  | nil => exact fun _ p l t h => ⟨l, p, rfl, h.symm⟩
  | cons c q' ih =>
    intro hq p l t h
    rw [List.cons_append] at h
    obtain ⟨l1, hl1, hout⟩ := redactScan_cons_elim h (hq c (List.mem_cons_self c q'))
    obtain ⟨l', pv, hl', ht⟩ := ih (fun x hx => hq x (List.mem_cons_of_mem _ hx))
      (some c) l1 t hout.symm
    refine ⟨l', pv, ?_, ht⟩
    rw [hl1, hl', List.cons_append]

theorem containsSub_append_self (x y : Str) : containsSub x (x ++ y) = true := by
  have h : x.isPrefixOf (x ++ y) = true :=
    List.isPrefixOf_iff_prefix.mpr (List.prefix_append x y)
  unfold containsSub
  rw [h]
  rfl

theorem containsSub_cons_of_tail {x : Str} {c : Char} {t : Str}
    (h : containsSub x t = true) : containsSub x (c :: t) = true := by
  have heq : containsSub x (c :: t) = (x.isPrefixOf (c :: t) || containsSub x t) := rfl
  rw [heq, h]
  simp

theorem redactScan_id_or_marker (m : Option Char → Str → Option Nat) :
    ∀ (l : Str) (p : Option Char),
      redactScan m p l = l ∨ containsSub REDACTED (redactScan m p l) = true := by
  intro l
  induction l with
  | nil =>
    intro p
    left
    simp [redactScan]
  | cons c rest ih =>
    intro p
    simp only [redactScan]
    split
    · split
      · right
        exact containsSub_append_self REDACTED _
      · rcases ih (some c) with h1 | h1
        · left
          rw [h1]
        · right
          exact containsSub_cons_of_tail h1
    · rcases ih (some c) with h1 | h1
      · left
        rw [h1]
      · right
        exact containsSub_cons_of_tail h1

theorem redactScan_occ_marker {m : Option Char → Str → Option Nat}
    {pat : Str} {cls : Char → Bool}
    (hfire : ∀ p d b, cls d = true → ∃ n, m p (pat ++ d :: b) = some n ∧ 1 ≤ n) :
    ∀ (l : Str) (p : Option Char), tokOcc pat cls l →
      containsSub REDACTED (redactScan m p l) = true := by
  intro l
  induction l with
  | nil =>
    intro p hocc
    exfalso
    obtain ⟨a, d, b, habs, _⟩ := hocc
    simp at habs
  | cons c rest ih =>
    intro p hocc
    simp only [redactScan]
    split
    · rename_i n hm
      split
      · exact containsSub_append_self REDACTED _
      · rename_i hn
        obtain ⟨a, d, b, hl, hd⟩ := hocc
        cases a with
        | nil =>
          exfalso
          simp only [List.nil_append] at hl
          obtain ⟨n0, hm0, hn0⟩ := hfire p d b hd
          rw [← hl, hm] at hm0
          injection hm0 with hnn
          omega
        | cons x a' =>
          rw [List.cons_append, List.cons_append] at hl
          injection hl with h1 h2
          exact containsSub_cons_of_tail (ih (some c) ⟨a', d, b, h2, hd⟩)
    · rename_i hm
      obtain ⟨a, d, b, hl, hd⟩ := hocc
      cases a with
      | nil =>
        exfalso
        simp only [List.nil_append] at hl
        obtain ⟨n0, hm0, _⟩ := hfire p d b hd
        rw [← hl, hm] at hm0
        exact Option.noConfusion hm0
      | cons x a' =>
        rw [List.cons_append, List.cons_append] at hl
        injection hl with h1 h2
        exact containsSub_cons_of_tail (ih (some c) ⟨a', d, b, h2, hd⟩)

theorem redactScan_marker_noTok {pat : Str} {cls : Char → Bool}
    (hpat : pat ≠ []) (hpatR : ∀ x ∈ pat, ¬ x ∈ REDACTED) {out2 : Str}
    (hrec : noTok pat cls out2) : noTok pat cls (REDACTED ++ out2) := by
  intro t ht htok
  rcases suffix_append_cases ht with hY | ⟨cc, ss, hcs, htt⟩
  · exact hrec t hY htok
  · obtain ⟨d, b, hteq, hd⟩ := htok
    obtain ⟨pc, pat', rfl⟩ : ∃ pc pat', pat = pc :: pat' := by
      cases pat with
      | nil => exact absurd rfl hpat
      | cons a bb => exact ⟨a, bb, rfl⟩
    rw [htt, List.cons_append, List.cons_append] at hteq
    injection hteq with hh _
    exact hpatR pc (List.mem_cons_self pc pat')
      (hh ▸ hcs.subset (List.mem_cons_self cc ss))

theorem redactScan_kept_noTok {m : Option Char → Str → Option Nat} {pat : Str}
    {cls : Char → Bool} {c : Char} {rest : Str}
    (hpat : pat ≠ []) (hpatR : ∀ x ∈ pat, ¬ x ∈ REDACTED) (hcls : cls '[' = false)
    (hnofire : ∀ d l3, cls d = true → c :: rest = pat ++ d :: l3 → False)
    (hrec : noTok pat cls (redactScan m (some c) rest)) :
    noTok pat cls (c :: redactScan m (some c) rest) := by
  intro t ht htok
  rcases List.suffix_cons_iff.mp ht with h1 | h1
  · obtain ⟨d, b, hteq, hd⟩ := htok
    obtain ⟨pc, pat', rfl⟩ : ∃ pc pat', pat = pc :: pat' := by
      cases pat with
      | nil => exact absurd rfl hpat
      | cons a bb => exact ⟨a, bb, rfl⟩
    have hkey : c :: redactScan m (some c) rest = pc :: (pat' ++ d :: b) := by
      rw [← h1, hteq, List.cons_append]
    injection hkey with hh htail
    have hB : ∀ x ∈ pat', x ≠ '[' := by
      have hbr : ('[' : Char) ∈ REDACTED := by decide
      intro x hx hxeq
      exact hpatR x (List.mem_cons_of_mem _ hx) (hxeq ▸ hbr)
    obtain ⟨l2, pv, hrest2, hdb⟩ := redactScan_chain pat' hB (some c) rest (d :: b) htail
    have hdnb : d ≠ '[' := by
      intro hdd
      rw [hdd, hcls] at hd
      exact Bool.noConfusion hd
    obtain ⟨l3, hl3, _⟩ := redactScan_cons_elim hdb.symm hdnb
    refine hnofire d l3 hd ?_
    rw [List.cons_append, hh, hrest2, hl3]
  · exact hrec t h1 htok

theorem redactScan_self_noTok {m : Option Char → Str → Option Nat} {pat : Str}
    {cls : Char → Bool}
    (hpat : pat ≠ []) (hpatR : ∀ x ∈ pat, ¬ x ∈ REDACTED) (hcls : cls '[' = false)
    (hfire : ∀ p d b, cls d = true → ∃ n, m p (pat ++ d :: b) = some n ∧ 1 ≤ n) :
    ∀ (N : Nat) (l : Str), l.length ≤ N → ∀ p, noTok pat cls (redactScan m p l) := by
  intro N
  induction N with
  | zero =>
    intro l hl p
    have hnil : l = [] := List.length_eq_zero.mp (Nat.le_zero.mp hl)
    subst hnil
    have he : redactScan m p ([] : Str) = [] := by simp [redactScan]
    rw [he]
    exact noTok_nil pat cls
  | succ N ihN =>
    intro l hl p
    cases l with
    | nil =>
      have he : redactScan m p ([] : Str) = [] := by simp [redactScan]
      rw [he]
      exact noTok_nil pat cls
    | cons c rest =>
      have hl' : rest.length + 1 ≤ N + 1 := by simpa using hl
      simp only [redactScan]
      split
      · rename_i n hm
        split
        · rename_i hn
          refine redactScan_marker_noTok hpat hpatR ?_
          refine ihN ((c :: rest).drop n) ?_ ((c :: rest).get? (n - 1))
          simp only [List.length_drop, List.length_cons]
          omega
        · rename_i hn
          refine redactScan_kept_noTok hpat hpatR hcls ?_ (ihN rest (by omega) (some c))
          intro d l3 hd heq
          obtain ⟨n0, hm0, hn0⟩ := hfire p d l3 hd
          rw [← heq, hm] at hm0
          injection hm0 with hnn
          omega
      · rename_i hm
        refine redactScan_kept_noTok hpat hpatR hcls ?_ (ihN rest (by omega) (some c))
        intro d l3 hd heq
        obtain ⟨n0, hm0, _⟩ := hfire p d l3 hd
        rw [← heq, hm] at hm0
        exact Option.noConfusion hm0

theorem redactScan_preserve_noTok (m : Option Char → Str → Option Nat) {pat : Str}
    {cls : Char → Bool}
    (hpat : pat ≠ []) (hpatR : ∀ x ∈ pat, ¬ x ∈ REDACTED) (hcls : cls '[' = false) :
    ∀ (N : Nat) (l : Str), l.length ≤ N → noTok pat cls l → ∀ p,
      noTok pat cls (redactScan m p l) := by
  intro N
  induction N with
  | zero =>
    intro l hl _ p
    have hnil : l = [] := List.length_eq_zero.mp (Nat.le_zero.mp hl)
    subst hnil
    have he : redactScan m p ([] : Str) = [] := by simp [redactScan]
    rw [he]
    exact noTok_nil pat cls
  | succ N ihN =>
    intro l hl hno p
    cases l with
    | nil =>
      have he : redactScan m p ([] : Str) = [] := by simp [redactScan]
      rw [he]
      exact noTok_nil pat cls
    | cons c rest =>
      have hl' : rest.length + 1 ≤ N + 1 := by simpa using hl
      simp only [redactScan]
      split
      · rename_i n hm
        split
        · rename_i hn
          refine redactScan_marker_noTok hpat hpatR ?_
          refine ihN ((c :: rest).drop n) ?_
            (noTok_suffix (List.drop_suffix _ _) hno) ((c :: rest).get? (n - 1))
          simp only [List.length_drop, List.length_cons]
          omega
        · rename_i hn
          refine redactScan_kept_noTok hpat hpatR hcls ?_
            (ihN rest (by omega) (noTok_suffix (List.suffix_cons c rest) hno) (some c))
          intro d l3 hd heq
          exact hno (c :: rest) (List.suffix_refl _) ⟨d, l3, heq, hd⟩
      · rename_i hm
        refine redactScan_kept_noTok hpat hpatR hcls ?_
          (ihN rest (by omega) (noTok_suffix (List.suffix_cons c rest) hno) (some c))
        intro d l3 hd heq
        exact hno (c :: rest) (List.suffix_refl _) ⟨d, l3, heq, hd⟩

theorem redactScan_through {m : Option Char → Str → Option Nat} :
    ∀ (Q : Str) (Y : Str),
      (∀ (p : Option Char) (i : Nat), i < Q.length → m p (Q.drop i ++ Y) = none) →
      ∀ p, ∃ pv, redactScan m p (Q ++ Y) = Q ++ redactScan m pv Y := by
  intro Q
  induction Q with
  | nil => exact fun Y _ p => ⟨p, rfl⟩
  | cons c Q' ih =>
    intro Y hQ p
    have h0 : m p (c :: (Q' ++ Y)) = none := by
      have hx := hQ p 0 (by simp)
      simpa using hx
    obtain ⟨pv, hpv⟩ := ih Y (fun p' i hi => by
      have hx := hQ p' (i + 1) (by simp only [List.length_cons]; omega)
      simpa using hx) (some c)
    refine ⟨pv, ?_⟩
    rw [List.cons_append]
    simp only [redactScan]
    rw [h0]
    show c :: redactScan m (some c) (Q' ++ Y) = (c :: Q') ++ redactScan m pv Y
    rw [hpv, List.cons_append]

theorem redactScan_marker_pass {m : Option Char → Str → Option Nat}
    (hnone : ∀ (p : Option Char) (Y : Str) (i : Nat), i < REDACTED.length →
      m p (REDACTED.drop i ++ Y) = none) :
    ∀ (l : Str) (p : Option Char), containsSub REDACTED l = true →
      containsSub REDACTED (redactScan m p l) = true := by
  intro l
  induction l with
  | nil =>
    intro p h
    exact absurd h (by decide)
  | cons c rest ih =>
    intro p h
    have heq : containsSub REDACTED (c :: rest) =
        (REDACTED.isPrefixOf (c :: rest) || containsSub REDACTED rest) := rfl
    rw [heq] at h
    cases hpre : REDACTED.isPrefixOf (c :: rest) with
    | true =>
      obtain ⟨Y, hY⟩ := List.isPrefixOf_iff_prefix.mp hpre
      rw [← hY]
      obtain ⟨pv, hscan⟩ := redactScan_through REDACTED Y (fun p' i hi => hnone p' Y i hi) p
      rw [hscan]
      exact containsSub_append_self REDACTED _
    | false =>
      rw [hpre] at h
      simp only [Bool.false_or] at h
      simp only [redactScan]
      split
      · split
        · exact containsSub_append_self REDACTED _
        · exact containsSub_cons_of_tail (ih (some c) h)
      · exact containsSub_cons_of_tail (ih (some c) h)

theorem githubPatMatch_none_in_marker :
    ∀ (p : Option Char) (Y : Str) (i : Nat), i < REDACTED.length →
      githubPatMatch p (REDACTED.drop i ++ Y) = none := by
  intro p Y i hi
  have hi' : i < 10 := hi
  rcases i with _ | _ | _ | _ | _ | _ | _ | _ | _ | _ | i
  all_goals first | rfl | omega

theorem discordMatch_none_in_marker :
    ∀ (p : Option Char) (Y : Str) (i : Nat), i < REDACTED.length →
      discordMatch p (REDACTED.drop i ++ Y) = none := by
  intro p Y i hi
  have hi' : i < 10 := hi
  rcases i with _ | _ | _ | _ | _ | _ | _ | _ | _ | _ | i
  all_goals first | rfl | omega

theorem genericTokenMatch_none_in_marker :
    ∀ (p : Option Char) (Y : Str) (i : Nat), i < REDACTED.length →
      genericTokenMatch p (REDACTED.drop i ++ Y) = none := by
  intro p Y i hi
  have hi' : i < 10 := hi
  rcases i with _ | _ | _ | _ | _ | _ | _ | _ | _ | _ | i
  all_goals first | rfl | omega

theorem skMatch_none_in_marker :
    ∀ (p : Option Char) (Y : Str) (i : Nat), i < REDACTED.length →
      skMatch p (REDACTED.drop i ++ Y) = none := by
  intro p Y i hi
  have hi' : i < 10 := hi
  rcases i with _ | _ | _ | _ | _ | _ | _ | _ | _ | _ | i
  all_goals first | rfl | omega

theorem skProjMatch_none_in_marker :
    ∀ (p : Option Char) (Y : Str) (i : Nat), i < REDACTED.length →
      skProjMatch p (REDACTED.drop i ++ Y) = none := by
  intro p Y i hi
  have hi' : i < 10 := hi
  rcases i with _ | _ | _ | _ | _ | _ | _ | _ | _ | _ | i
  all_goals first | rfl | omega

theorem ghpMatch_fires (p : Option Char) (d : Char) (b : Str)
    (hd : isGhpClassC d = true) :
    ∃ n, ghpMatch p ("ghp_".data ++ d :: b) = some n ∧ 1 ≤ n := by
  refine ⟨4 + countWhile isGhpClassC (d :: b), ?_, by omega⟩
  have hpre : "ghp_".data.isPrefixOf ("ghp_".data ++ d :: b) = true :=
    List.isPrefixOf_iff_prefix.mpr (List.prefix_append _ _)
  have hdrop : ("ghp_".data ++ d :: b).drop 4 = d :: b := rfl
  have hcnt : 1 ≤ countWhile isGhpClassC (d :: b) := by
    simp [countWhile, List.takeWhile_cons, hd]
  simp [ghpMatch, hpre, hdrop, hcnt]

theorem githubPatMatch_fires (p : Option Char) (d : Char) (b : Str)
    (hd : isWordC d = true) :
    ∃ n, githubPatMatch p ("github_pat_".data ++ d :: b) = some n ∧ 1 ≤ n := by
  refine ⟨11 + countWhile isWordC (d :: b), ?_, by omega⟩
  have hpre : "github_pat_".data.isPrefixOf ("github_pat_".data ++ d :: b) = true :=
    List.isPrefixOf_iff_prefix.mpr (List.prefix_append _ _)
  have hdrop : ("github_pat_".data ++ d :: b).drop 11 = d :: b := rfl
  have hcnt : 1 ≤ countWhile isWordC (d :: b) := by
    simp [countWhile, List.takeWhile_cons, hd]
  simp [githubPatMatch, hpre, hdrop, hcnt]

theorem redactSecrets_no_ghp (s : Str) :
    noTok "ghp_".data isGhpClassC (redactSecrets s) := by
  have hp1 : ("ghp_".data : Str) ≠ [] := by decide
  have hp2 : ∀ x ∈ ("ghp_".data : Str), ¬ x ∈ REDACTED := by decide
  have hp3 : isGhpClassC '[' = false := by decide
  have h1 : noTok "ghp_".data isGhpClassC (redactScan ghpMatch none s) :=
    redactScan_self_noTok hp1 hp2 hp3 ghpMatch_fires s.length s (Nat.le_refl _) none
  have h2 := redactScan_preserve_noTok githubPatMatch hp1 hp2 hp3 _ _
    (Nat.le_refl _) h1 none
  have h3 := redactScan_preserve_noTok discordMatch hp1 hp2 hp3 _ _
    (Nat.le_refl _) h2 none
  have h4 := redactScan_preserve_noTok genericTokenMatch hp1 hp2 hp3 _ _
    (Nat.le_refl _) h3 none
  have h5 := redactScan_preserve_noTok skMatch hp1 hp2 hp3 _ _
    (Nat.le_refl _) h4 none
  exact redactScan_preserve_noTok skProjMatch hp1 hp2 hp3 _ _
    (Nat.le_refl _) h5 none

theorem redactSecrets_no_gpat (s : Str) :
    noTok "github_pat_".data isWordC (redactSecrets s) := by
  have hp1 : ("github_pat_".data : Str) ≠ [] := by decide
  have hp2 : ∀ x ∈ ("github_pat_".data : Str), ¬ x ∈ REDACTED := by decide
  have hp3 : isWordC '[' = false := by decide
  have h2 : noTok "github_pat_".data isWordC
      (redactScan githubPatMatch none (redactScan ghpMatch none s)) :=
    redactScan_self_noTok hp1 hp2 hp3 githubPatMatch_fires _ _ (Nat.le_refl _) none
  have h3 := redactScan_preserve_noTok discordMatch hp1 hp2 hp3 _ _
    (Nat.le_refl _) h2 none
  have h4 := redactScan_preserve_noTok genericTokenMatch hp1 hp2 hp3 _ _
    (Nat.le_refl _) h3 none
  have h5 := redactScan_preserve_noTok skMatch hp1 hp2 hp3 _ _
    (Nat.le_refl _) h4 none
  exact redactScan_preserve_noTok skProjMatch hp1 hp2 hp3 _ _
    (Nat.le_refl _) h5 none

theorem redactSecrets_ghp_marker (s : Str)
    (h : tokOcc "ghp_".data isGhpClassC s) :
    containsSub REDACTED (redactSecrets s) = true := by
  have h1 : containsSub REDACTED (redactScan ghpMatch none s) = true :=
    redactScan_occ_marker ghpMatch_fires s none h
  have h2 := redactScan_marker_pass githubPatMatch_none_in_marker _ none h1
  have h3 := redactScan_marker_pass discordMatch_none_in_marker _ none h2
  have h4 := redactScan_marker_pass genericTokenMatch_none_in_marker _ none h3
  have h5 := redactScan_marker_pass skMatch_none_in_marker _ none h4
  exact redactScan_marker_pass skProjMatch_none_in_marker _ none h5

theorem redactSecrets_gpat_marker (s : Str)
    (h : tokOcc "github_pat_".data isWordC s) :
    containsSub REDACTED (redactSecrets s) = true := by
  have h2 : containsSub REDACTED
      (redactScan githubPatMatch none (redactScan ghpMatch none s)) = true := by
    rcases redactScan_id_or_marker ghpMatch s none with h1 | h1
    · rw [h1]
      exact redactScan_occ_marker githubPatMatch_fires s none h
    · exact redactScan_marker_pass githubPatMatch_none_in_marker _ none h1
  have h3 := redactScan_marker_pass discordMatch_none_in_marker _ none h2
  have h4 := redactScan_marker_pass genericTokenMatch_none_in_marker _ none h3
  have h5 := redactScan_marker_pass skMatch_none_in_marker _ none h4
  exact redactScan_marker_pass skProjMatch_none_in_marker _ none h5

mutual

theorem redactObject_strings : ∀ (j : Json),
    (redactObject j).strings = j.strings.map redactSecrets
  | .jnull => rfl
  | .jbool _ => rfl
  | .jnum _ => rfl
  | .jstr _ => rfl
  | .jarr l => redactObjectList_strings l
  | .jobj fs => redactObjectFields_strings fs

theorem redactObjectList_strings : ∀ (l : List Json),
    Json.stringsList (redactObjectList l) = (Json.stringsList l).map redactSecrets
  | [] => rfl
  | x :: rest => by
    show (redactObject x).strings ++ Json.stringsList (redactObjectList rest) = _
    rw [redactObject_strings x, redactObjectList_strings rest]
    simp [Json.stringsList]

theorem redactObjectFields_strings : ∀ (fs : List (String × Json)),
    Json.stringsFields (redactObjectFields fs) =
      (Json.stringsFields fs).map redactSecrets
  | [] => rfl
  | (k, v) :: rest => by
    show (redactObject v).strings ++ Json.stringsFields (redactObjectFields rest) = _
    rw [redactObject_strings v, redactObjectFields_strings rest]
    simp [Json.stringsFields]

end

/-- C9: export redaction.  The deploy transform maps `redactObject` over
every event and over the summary; `redactObject` rewrites exactly the
string values of a JSON tree (recursively, in order) by `redactSecrets`
and leaves non-string primitives unchanged; and for every string that
contains a GitHub token-shaped substring (`ghp_` followed by a character
of its class, or `github_pat_` followed by a word character), the
redacted string contains the literal `[REDACTED]` marker while no
substring of it matches either token shape any more. -/
theorem C9_export_redaction (events : List Json) (summary : Json) :
    deployRedact events summary = (events.map redactObject, redactObject summary) ∧
    (∀ j : Json, (redactObject j).strings = j.strings.map redactSecrets) ∧
    (redactObject .jnull = .jnull ∧ (∀ b, redactObject (.jbool b) = .jbool b) ∧
      (∀ n, redactObject (.jnum n) = .jnum n)) ∧
    (∀ s : Str, tokOcc "ghp_".data isGhpClassC s →
      containsSub REDACTED (redactSecrets s) = true) ∧
    (∀ s : Str, tokOcc "github_pat_".data isWordC s →
      containsSub REDACTED (redactSecrets s) = true) ∧
    (∀ s : Str, ¬ tokOcc "ghp_".data isGhpClassC (redactSecrets s)) ∧
    (∀ s : Str, ¬ tokOcc "github_pat_".data isWordC (redactSecrets s)) := by
  refine ⟨rfl, redactObject_strings, ⟨rfl, fun _ => rfl, fun _ => rfl⟩,
    redactSecrets_ghp_marker, redactSecrets_gpat_marker, ?_, ?_⟩
  · intro s hocc
    obtain ⟨t, ht, htp⟩ := (tokOcc_iff _ _ _).mp hocc
    exact redactSecrets_no_ghp s t ht htp
  · intro s hocc
    obtain ⟨t, ht, htp⟩ := (tokOcc_iff _ _ _).mp hocc
    exact redactSecrets_no_gpat s t ht htp

theorem C9_witness :
    tokOcc "ghp_".data isGhpClassC "see ghp_abc123 done".data ∧
    containsSub REDACTED (redactSecrets "see ghp_abc123 done".data) = true ∧
    ¬ tokOcc "ghp_".data isGhpClassC (redactSecrets "see ghp_abc123 done".data) := by
  have hocc : tokOcc "ghp_".data isGhpClassC "see ghp_abc123 done".data :=
    ⟨"see ".data, 'a', "bc123 done".data, by decide, by decide⟩
  obtain ⟨hpair, hstr, hprim, hghp, hgpat, hno1, hno2⟩ :=
    C9_export_redaction [] Json.jnull
  exact ⟨hocc, hghp _ hocc, hno1 _⟩

end LogViz
